import Mathlib

/-!
# Verification of the bibtexrs BibTeX parser

Shallow embedding of `src/parser.rs` and `src/bibfile.rs` (a nom-macro
based BibTeX parser).  The source uses nom's streaming `named!` parsers
over `&str`; the embedding models nom's result type with three outcomes
(`ok`, `err`, `incomplete`), mirroring nom's `Ok`, `Err::Error` and
`Err::Incomplete`.  The repository's own tests terminate every input with
a `\0` sentinel, which is the idiom for nom's streaming parsers: at the
end of input, character-class parsers (`alpha`, `alphanumeric`, `is_not`)
and the whitespace eater used by `ws!` return `Incomplete` rather than
succeeding, and `tag!` returns `Incomplete` when the input is a proper
prefix of the tag.  `complete!` converts `Incomplete` into an error.
The embedding reproduces this faithfully.

Strings are modelled as `List Char`; `HashMap<String, String>` is
modelled as an association list built by an insert-that-replaces
operation (`hmInsert`), mirroring `HashMap::insert`'s overwrite
semantics (iteration order aside, which no theorem here depends on,
except that the model of `Display` renders tags in the list's order —
rendering order is unspecified in the source as well).
-/

/-- Result of running a parser, mirroring nom's `IResult`:
`ok rest val` is `Ok((rest, val))`, `err` is `Err(Err::Error(_))`
(the source never inspects error details), `incomplete` is
`Err(Err::Incomplete(_))`. -/
inductive PResult (α : Type) where
  | ok (rest : List Char) (val : α)
  | err
  | incomplete
deriving Repr, DecidableEq

namespace PResult

/-- Sequencing of parser results (the implicit sequencing inside nom's
`do_parse!` / `delimited!` / `separated_pair!`): errors and `Incomplete`
propagate. -/
def bind {α β : Type} (x : PResult α) (f : List Char → α → PResult β) :
    PResult β :=
  match x with
  | .ok rest v => f rest v
  | .err => .err
  | .incomplete => .incomplete

/-- nom's `alt!` between two alternatives: the second is tried only on
`Err::Error`; `Ok` and `Incomplete` short-circuit. -/
def orElse {α : Type} (x : PResult α) (f : Unit → PResult α) : PResult α :=
  match x with
  | .err => f ()
  | y => y

/-- Map over the value. -/
def pmap {α β : Type} (f : α → β) (x : PResult α) : PResult β :=
  match x with
  | .ok rest v => .ok rest (f v)
  | .err => .err
  | .incomplete => .incomplete

end PResult

/-- The whitespace set of nom's `ws!` separator (`" \t\r\n"`). -/
def isWsNom (c : Char) : Bool :=
  c = ' ' || c = '\t' || c = '\r' || c = '\n'

/-- nom's `AsChar::is_alpha`: ASCII letters. -/
def isAlphaNom (c : Char) : Bool :=
  ('a' ≤ c && c ≤ 'z') || ('A' ≤ c && c ≤ 'Z')

/-- nom's `AsChar::is_alphanum`: ASCII letters and digits. -/
def isAlphaNumNom (c : Char) : Bool :=
  isAlphaNom c || ('0' ≤ c && c ≤ '9')

/-- The character class excluded by `is_not!("\"\x7b\x7d")`. -/
def isStrSpecial (c : Char) : Bool :=
  c = '"' || c = '{' || c = '}'

/-- nom's `tag!(t)` on `&str`: succeeds if `t` is a prefix of the input;
returns `Incomplete` if the input is a proper prefix of `t`; errors
otherwise. -/
def tagTok (t : List Char) (i : List Char) : PResult (List Char) :=
  if t.isPrefixOf i then .ok (i.drop t.length) t
  else if i.isPrefixOf t then .incomplete
  else .err

/-- nom's streaming `split_at_position1` (used by `alpha`,
`alphanumeric`, `is_not!`): take the maximal run satisfying `p`;
if the run extends to the end of input (including empty input) the
parser cannot know the run ended, so it returns `Incomplete`; an empty
run mid-input is an error. -/
def takeWhile1 (p : Char → Bool) (i : List Char) : PResult (List Char) :=
  let run := i.takeWhile p
  if run.length = i.length then .incomplete
  else if run.isEmpty then .err
  else .ok (i.drop run.length) run

/-- `nom::alpha` (streaming). -/
def alpha (i : List Char) : PResult (List Char) :=
  takeWhile1 isAlphaNom i

/-- `nom::alphanumeric` (streaming). -/
def alphanumeric (i : List Char) : PResult (List Char) :=
  takeWhile1 isAlphaNumNom i

/-- `any_string` = `is_not!("\"\x7b\x7d")`. -/
def any_string (i : List Char) : PResult (List Char) :=
  takeWhile1 (fun c => !isStrSpecial c) i

/-- The whitespace eater threaded in by `ws!` (nom's streaming
`split_at_position`): consume leading whitespace; if whitespace runs to
the end of input (including empty input) return `Incomplete`. -/
def sp : List Char → PResult Unit
  | [] => .incomplete
  | c :: cs => if isWsNom c then sp cs else .ok (c :: cs) ()

/-- nom's `complete!`: convert `Incomplete` into `Err::Error`. -/
def completeP {α : Type} : PResult α → PResult α
  | .incomplete => .err
  | x => x

/-- nom's `opt!`: `Err::Error` becomes `Ok(None)` with no input consumed;
`Incomplete` propagates. -/
def optP {α : Type} (p : List Char → PResult α) (i : List Char) :
    PResult (Option α) :=
  match p i with
  | .ok rest v => .ok rest (some v)
  | .err => .ok i none
  | .incomplete => .incomplete

/-!
## The recursive string-value grammar

`string` in the source is
`recognize!(many1!(alt!(recognize!(delimited_string) | any_string)))`
and `delimited_string = alt!(braced_string | quoted_string)` where
`braced_string`/`quoted_string` are `complete!(delimited!(tag, string, tag))`.
The recursion is modelled with a fuel parameter that decreases once per
brace/quote nesting level; callers supply `input.length + 1` fuel, which
exceeds any possible nesting depth, and similarly for the iteration fuel
of the `many1` loop, each iteration of which must consume input. -/

/-- The loop underlying nom's `many0!`/`many1!` iteration (values
discarded, as they all sit under a `recognize!`): stop with success on
`Err::Error` or at the end of input; propagate `Incomplete`; a
successful child that consumed nothing is an error (nom's
`ErrorKind::Many*` infinite-loop protection, which also bounds the loop
by the input length, so the fuel below is never exhausted on the fuel
supplied by callers). -/
def manyLoopU (p : List Char → PResult Unit) : Nat → List Char → PResult Unit
  | 0, _ => .err
  | fuel + 1, i =>
    if i.isEmpty then .ok i () else
    match p i with
    | .err => .ok i ()
    | .incomplete => .incomplete
    | .ok i1 _ => if i1 = i then .err else manyLoopU p fuel i1

/-- nom's `many1!` (values discarded): the first application must
succeed, then iterate as `many0!` does. -/
def many1U (p : List Char → PResult Unit) (fuel : Nat) (i : List Char) :
    PResult Unit :=
  match p i with
  | .err => .err
  | .incomplete => .incomplete
  | .ok i1 _ =>
    if i1 = i then (if i1.isEmpty then .ok i1 () else .err)
    else manyLoopU p fuel i1

/-- `recognize!` reconstructed from consumed length: wrap a rest-only
parser so that it returns the consumed prefix as its value. -/
def recognizeFrom (core : List Char → PResult Unit) (i : List Char) :
    PResult (List Char) :=
  match core i with
  | .ok rest _ => .ok rest (i.take (i.length - rest.length))
  | .err => .err
  | .incomplete => .incomplete

/-- `braced_string` built over a given body parser:
`complete!(delimited!(tag!("\x7b"), string, tag!("\x7d")))`. -/
def bracedOf (strP : List Char → PResult (List Char)) (i : List Char) :
    PResult (List Char) :=
  completeP <|
    (tagTok ['{'] i).bind fun i1 _ =>
    (strP i1).bind fun i2 s =>
    (tagTok ['}'] i2).bind fun i3 _ => .ok i3 s

/-- `quoted_string` built over a given body parser:
`complete!(delimited!(tag!("\""), string, tag!("\"")))`. -/
def quotedOf (strP : List Char → PResult (List Char)) (i : List Char) :
    PResult (List Char) :=
  completeP <|
    (tagTok ['"'] i).bind fun i1 _ =>
    (strP i1).bind fun i2 s =>
    (tagTok ['"'] i2).bind fun i3 _ => .ok i3 s

/-- `delimited_string = alt!(braced_string | quoted_string)` over a given
body parser. -/
def delimOf (strP : List Char → PResult (List Char)) (i : List Char) :
    PResult (List Char) :=
  (bracedOf strP i).orElse fun _ => quotedOf strP i

/-- One segment of `string`'s `many1`:
`alt!(recognize!(delimited_string) | any_string)` with the value
discarded. -/
def segOf (d : List Char → PResult (List Char)) (i : List Char) :
    PResult Unit :=
  match d i with
  | .ok rest _ => .ok rest ()
  | .incomplete => .incomplete
  | .err =>
    match any_string i with
    | .ok rest _ => .ok rest ()
    | .incomplete => .incomplete
    | .err => .err

/-- The rest-only core of `string`: one fuel is spent per nesting level
of `delimited_string` inside the segment list. -/
def stringCore : Nat → List Char → PResult Unit
  | 0, _ => .err
  | fuel + 1, i =>
    many1U (fun j => segOf (fun k => delimOf (recognizeFrom (stringCore fuel)) k) j)
      (i.length + 1) i

/-- `string` with explicit fuel: `recognize!(many1!(...))`. -/
def stringP (fuel : Nat) (i : List Char) : PResult (List Char) :=
  recognizeFrom (stringCore fuel) i

/-- `delimited_string` as used by the outer grammar, with ample fuel
derived from the input. -/
def delimited_string (i : List Char) : PResult (List Char) :=
  delimOf (stringP (i.length + 1)) i

/-- `braced_string` with ample fuel. -/
def braced_string (i : List Char) : PResult (List Char) :=
  bracedOf (stringP (i.length + 1)) i

/-- `quoted_string` with ample fuel. -/
def quoted_string (i : List Char) : PResult (List Char) :=
  quotedOf (stringP (i.length + 1)) i

/-!
## Tag pairs and tag lists
-/

/-- The value alternative of `tag_pair`:
`alt!(alphanumeric | delimited_string)` (an `Incomplete` from the first
alternative short-circuits, as nom's `alt!` does). -/
def tagPairValue (i : List Char) : PResult (List Char) :=
  (alphanumeric i).orElse fun _ => delimOf (stringP (i.length + 1)) i

/-- `tag_pair`:
`ws!(separated_pair!(alpha, tag!("="), alt!(alphanumeric | delimited_string)))`.
`ws!` threads the whitespace eater `sp` before every inner parser and
strips trailing whitespace after the whole pair. -/
def tag_pair (i : List Char) : PResult (List Char × List Char) :=
  (sp i).bind fun i1 _ =>
  (alpha i1).bind fun i2 k =>
  (sp i2).bind fun i3 _ =>
  (tagTok ['='] i3).bind fun i4 _ =>
  (sp i4).bind fun i5 _ =>
  (tagPairValue i5).bind fun i6 v =>
  (sp i6).bind fun i7 _ =>
  .ok i7 (k, v)

/-- `HashMap::insert` modelled on an association list: replace the value
in place if the key exists, append otherwise. -/
def hmInsert : List (List Char × List Char) → List Char → List Char →
    List (List Char × List Char)
  | [], k, v => [(k, v)]
  | (k', v') :: rest, k, v =>
    if k' = k then (k, v) :: rest else (k', v') :: hmInsert rest k v

/-- The fold in `tag_list`'s `map!`: insert each pair with the key
lower-cased (`k.to_lowercase()`), later occurrences overwriting. -/
def buildMap (l : List (List Char × List Char)) :
    List (List Char × List Char) :=
  l.foldl (fun m kv => hmInsert m (kv.1.map Char.toLower) kv.2) []

/-- The loop of nom's `separated_list!` after the first element: try the
separator (stop with success on its error), then the element must
succeed or the list ends *before* the separator (so a trailing separator
is never consumed); `Incomplete` propagates; non-consuming successes are
errors. -/
def sepListLoop (sepP : List Char → PResult (List Char))
    (elemP : List Char → PResult (List Char × List Char)) :
    Nat → List Char → List (List Char × List Char) →
    PResult (List (List Char × List Char))
  | 0, _, _ => .err
  | fuel + 1, input, acc =>
    match sepP input with
    | .err => .ok input acc
    | .incomplete => .incomplete
    | .ok i2 _ =>
      if i2 = input then .err else
      match elemP i2 with
      | .err => .ok input acc
      | .incomplete => .incomplete
      | .ok i3 o =>
        if i3 = i2 then .err else sepListLoop sepP elemP fuel i3 (acc ++ [o])

/-- nom's `separated_list!(sep, elem)`: an error on the first element
yields the empty list with no input consumed. -/
def separatedList (sepP : List Char → PResult (List Char))
    (elemP : List Char → PResult (List Char × List Char)) (i : List Char) :
    PResult (List (List Char × List Char)) :=
  match elemP i with
  | .err => .ok i []
  | .incomplete => .incomplete
  | .ok i1 o =>
    if i1 = i then .err else sepListLoop sepP elemP (i.length + 1) i1 [o]

/-- `tag_list`: `separated_list!(tag!(","), complete!(tag_pair))` mapped
through the lower-casing insertion fold. -/
def tag_list (i : List Char) : PResult (List (List Char × List Char)) :=
  (separatedList (tagTok [',']) (fun j => completeP (tag_pair j)) i).pmap buildMap

/-!
## The item dispatcher and the document parser
-/

/-- `BibItem` from `src/bibfile.rs`. -/
inductive BibItem where
  | string (tags : List (List Char × List Char))
  | preamble
  | comment
  | entry (entry_type : List Char) (label : List Char)
      (tags : List (List Char × List Char))
deriving Repr, DecidableEq

/-- The `@STRING` alternative of `bib_entry` (whitespace threading by the
enclosing `ws!` included):
`tag!("@STRING") >> delimited!(tag!("\x7b"), tag_list, tag!("\x7d"))`. -/
def bibEntryString (i : List Char) : PResult BibItem :=
  (sp i).bind fun i1 _ =>
  (tagTok "@STRING".data i1).bind fun i2 _ =>
  (sp i2).bind fun i3 _ =>
  (tagTok ['{'] i3).bind fun i4 _ =>
  (sp i4).bind fun i5 _ =>
  (tag_list i5).bind fun i6 m =>
  (sp i6).bind fun i7 _ =>
  (tagTok ['}'] i7).bind fun i8 _ =>
  .ok i8 (BibItem.string m)

/-- The `@PREAMBLE` alternative: just `tag!("@PREAMBLE")`; no body is
consumed. -/
def bibEntryPreamble (i : List Char) : PResult BibItem :=
  (sp i).bind fun i1 _ =>
  (tagTok "@PREAMBLE".data i1).bind fun i2 _ =>
  .ok i2 BibItem.preamble

/-- The `@COMMENT` alternative: just `tag!("@COMMENT")`; no body is
consumed. -/
def bibEntryComment (i : List Char) : PResult BibItem :=
  (sp i).bind fun i1 _ =>
  (tagTok "@COMMENT".data i1).bind fun i2 _ =>
  .ok i2 BibItem.comment

/-- The generic entry alternative:
`tag!("@") >> alpha >> tag!("\x7b") >> alphanumeric >> tag!(",") >>
 tag_list >> opt!(tag!(",")) >> tag!("\x7d")`, producing
`BibItem::Entry` with the type upper-cased. -/
def bibEntryEntry (i : List Char) : PResult BibItem :=
  (sp i).bind fun i1 _ =>
  (tagTok ['@'] i1).bind fun i2 _ =>
  (sp i2).bind fun i3 _ =>
  (alpha i3).bind fun i4 typ =>
  (sp i4).bind fun i5 _ =>
  (tagTok ['{'] i5).bind fun i6 _ =>
  (sp i6).bind fun i7 _ =>
  (alphanumeric i7).bind fun i8 label =>
  (sp i8).bind fun i9 _ =>
  (tagTok [','] i9).bind fun i10 _ =>
  (sp i10).bind fun i11 _ =>
  (tag_list i11).bind fun i12 tags =>
  (optP (fun j => (sp j).bind fun j1 _ => tagTok [','] j1) i12).bind fun i13 _ =>
  (sp i13).bind fun i14 _ =>
  (tagTok ['}'] i14).bind fun i15 _ =>
  .ok i15 (BibItem.entry (typ.map Char.toUpper) label tags)

/-- The ordered `alt!` of the four alternatives (without the final
trailing-whitespace strip of the enclosing `ws!`). -/
def bibEntryCore (i : List Char) : PResult BibItem :=
  (bibEntryString i).orElse fun _ =>
  (bibEntryPreamble i).orElse fun _ =>
  (bibEntryComment i).orElse fun _ =>
  bibEntryEntry i

/-- `bib_entry = ws!(alt!(...))`: the alternatives followed by the
trailing whitespace strip that `ws!` performs after its body. -/
def bib_entry (i : List Char) : PResult BibItem :=
  (bibEntryCore i).bind fun r v =>
  (sp r).bind fun r2 _ =>
  .ok r2 v

/-- The `many0!` loop of `bibfile`: at the end of input stop with
success; a child `Err::Error` stops with the items accumulated so far
and the input positioned at the failed attempt; the child is
`complete!(bib_entry)` (with the whitespace eater threaded before the
call by the enclosing `ws!`), so it never returns `Incomplete`. -/
def bibfileLoop : Nat → List Char → List BibItem → PResult (List BibItem)
  | 0, _, _ => .err
  | fuel + 1, input, acc =>
    if input.isEmpty then .ok input acc else
    match completeP ((sp input).bind fun i1 _ => bib_entry i1) with
    | .err => .ok input acc
    | .incomplete => .incomplete
    | .ok i o =>
      if i = input then .err else bibfileLoop fuel i (acc ++ [o])

/-- `bibfile = ws!(many0!(complete!(bib_entry)))`: the repetition
followed by `ws!`'s trailing whitespace strip. -/
def bibfile (i : List Char) : PResult (List BibItem) :=
  (bibfileLoop (i.length + 1) i []).bind fun r items =>
  (sp r).bind fun r2 _ =>
  .ok r2 items

/-- The parse stage of `BibItem::load` (the file read is I/O and out of
scope): `Ok((_, file)) => Ok(file), Err(_) => Err(BibError)`, modelled
with `none` as `BibError`. -/
def loadParsed (i : List Char) : Option (List BibItem) :=
  match bibfile i with
  | .ok _ items => some items
  | _ => none

/-- One step of `string`'s segment grammar at a given nesting fuel, as
it occurs inside `stringCore (fuel + 1)`. -/
def segStep (fuel : Nat) (i : List Char) : PResult Unit :=
  segOf (fun k => delimOf (recognizeFrom (stringCore fuel)) k) i

/-- A tail at which the segment loop of `string` stops: nonempty with a
string-special head, and the segment parser fails there at every
nesting fuel. -/
def SegStop (t : List Char) : Prop :=
  (∃ x xs, t = x :: xs ∧ isStrSpecial x = true) ∧ ∀ f, segStep f t = .err

/-- Precondition on the tail following one value chunk under which the
chunk is consumed as one segment: either the chunk is a braced group
(whose extent does not depend on the tail), or the tail starts with a
string-special character (so a plain run stops exactly at the chunk's
end). -/
def TailOK (c t : List Char) : Prop :=
  c.head? = some '{' ∨ ∃ x xs, t = x :: xs ∧ isStrSpecial x = true

/-- Keys of a tag mapping are lower-cased: no key contains an upper-case
ASCII letter. -/
def keysLower (m : List (List Char × List Char)) : Bool :=
  m.all fun kv => kv.1.all fun c => !('A' ≤ c && c ≤ 'Z')

/-- An entry type is upper-cased: it contains no lower-case ASCII
letter. -/
def typeUpper (t : List Char) : Bool :=
  t.all fun c => !('a' ≤ c && c ≤ 'z')

/-- The normalization invariant of §3 of the spec on a single item:
entry types are stored upper-cased and tag keys lower-cased. -/
def ItemInv : BibItem → Bool
  | .string m => keysLower m
  | .preamble => true
  | .comment => true
  | .entry t _ m => typeUpper t && keysLower m

mutual

/-- One chunk of a well-formed (quote-free) value body: either a maximal
nonempty run of characters outside `{}"`, or a brace-delimited group
whose interior is itself a well-formed body.  Returns the rest of the
input after the chunk.  One fuel is spent per brace-nesting level. -/
def valueChunk : Nat → List Char → Option (List Char)
  | 0, _ => none
  | fuel + 1, i =>
    match i with
    | [] => none
    | '{' :: tail =>
      match valueSeq fuel tail with
      | some ('}' :: rest) => some rest
      | _ => none
    | c :: cs =>
      if isStrSpecial c then none
      else some (List.dropWhile (fun d => !isStrSpecial d) (c :: cs))
termination_by fuel i => (fuel, i.length, 0)

/-- One or more chunks, consumed greedily (each chunk is nonempty, so
recursion is on the input length; the fuel only bounds nesting). -/
def valueSeq (fuel : Nat) (i : List Char) : Option (List Char) :=
  match valueChunk fuel i with
  | none => none
  | some rest =>
    if h : rest.length < i.length then
      match valueSeq fuel rest with
      | some r2 => some r2
      | none => some rest
    else none
termination_by (fuel, i.length, 1)

end

/-- A well-formed quote-free value body: a nonempty chunk sequence
covering the whole value. -/
def vOK (v : List Char) : Bool :=
  valueSeq (v.length + 1) v = some []

/-- Well-formedness of an entry type for the round-trip statement:
nonempty, upper-case ASCII letters. -/
def entryTypeOK (t : List Char) : Bool :=
  !t.isEmpty && t.all fun c => 'A' ≤ c && c ≤ 'Z'

/-- Well-formedness of a label: nonempty, alphanumeric. -/
def labelOK (l : List Char) : Bool :=
  !l.isEmpty && l.all isAlphaNumNom

/-- Well-formedness of a stored tag key: nonempty, lower-case ASCII
letters. -/
def keyOK (k : List Char) : Bool :=
  !k.isEmpty && k.all fun c => 'a' ≤ c && c ≤ 'z'

/-- The `fmt::Display` rendering of a `BibItem::Entry`:
`@TYPE{label,\n` then `    key = {value},\n` per tag, then `}\n\n`.
(Tags are rendered in the association list's order; `HashMap` iteration
order is unspecified in the source.) -/
def renderEntry (t label : List Char) (tags : List (List Char × List Char)) :
    List Char :=
  '@' :: t ++ '{' :: label ++ [',', '\n'] ++
  (tags.flatMap fun kv =>
    ' ' :: ' ' :: ' ' :: ' ' :: kv.1 ++ ' ' :: '=' :: ' ' :: '{' :: kv.2 ++
    ['}', ',', '\n']) ++
  ['}', '\n', '\n']

/-!
## General lemmas
-/

@[simp]
theorem PResult.bind_ok {α β : Type} (r : List Char) (v : α)
    (f : List Char → α → PResult β) : (PResult.ok r v).bind f = f r v := rfl

@[simp]
theorem PResult.bind_err {α β : Type} (f : List Char → α → PResult β) :
    PResult.bind .err f = .err := rfl

@[simp]
theorem PResult.bind_incomplete {α β : Type} (f : List Char → α → PResult β) :
    PResult.bind .incomplete f = .incomplete := rfl

@[simp]
theorem PResult.orElse_ok {α : Type} (r : List Char) (v : α)
    (f : Unit → PResult α) : (PResult.ok r v).orElse f = .ok r v := rfl

@[simp]
theorem PResult.orElse_err {α : Type} (f : Unit → PResult α) :
    PResult.orElse .err f = f () := rfl

@[simp]
theorem PResult.orElse_incomplete {α : Type} (f : Unit → PResult α) :
    PResult.orElse .incomplete f = .incomplete := rfl

/-- Lower-casing a character never yields an upper-case ASCII letter. -/
theorem toLower_no_upper (c : Char) :
    ('A' ≤ Char.toLower c && Char.toLower c ≤ 'Z') = false := by
  by_cases h : 65 ≤ c.toNat ∧ c.toNat ≤ 90
  · have hrw : Char.toLower c = Char.ofNat (c.toNat + 32) := by
      unfold Char.toLower
      simp [h.1, h.2]
    rw [hrw]
    obtain ⟨h1, h2⟩ := h
    set n := c.toNat with hn
    interval_cases n <;> decide
  · have hrw : Char.toLower c = c := by
      unfold Char.toLower
      simp only [ge_iff_le, decide_eq_true_eq]
      rw [if_neg h]
    rw [hrw, Bool.and_eq_false_iff]
    rcases Decidable.not_and_iff_or_not.mp h with h1 | h1
    · left
      simp only [decide_eq_false_iff_not]
      intro hc
      exact h1 (by simpa [Char.le_def, Char.toNat] using hc)
    · right
      simp only [decide_eq_false_iff_not]
      intro hc
      exact h1 (by simpa [Char.le_def, Char.toNat] using hc)

/-- Upper-casing a character never yields a lower-case ASCII letter. -/
theorem toUpper_no_lower (c : Char) :
    ('a' ≤ Char.toUpper c && Char.toUpper c ≤ 'z') = false := by
  by_cases h : 97 ≤ c.toNat ∧ c.toNat ≤ 122
  · have hrw : Char.toUpper c = Char.ofNat (c.toNat - 32) := by
      unfold Char.toUpper
      simp [h.1, h.2]
    rw [hrw]
    obtain ⟨h1, h2⟩ := h
    set n := c.toNat with hn
    interval_cases n <;> decide
  · have hrw : Char.toUpper c = c := by
      unfold Char.toUpper
      simp only [ge_iff_le, decide_eq_true_eq]
      rw [if_neg h]
    rw [hrw, Bool.and_eq_false_iff]
    rcases Decidable.not_and_iff_or_not.mp h with h1 | h1
    · left
      simp only [decide_eq_false_iff_not]
      intro hc
      exact h1 (by simpa [Char.le_def, Char.toNat] using hc)
    · right
      simp only [decide_eq_false_iff_not]
      intro hc
      exact h1 (by simpa [Char.le_def, Char.toNat] using hc)

/-- Inserting a key with no upper-case letters preserves `keysLower`. -/
theorem hmInsert_keysLower {m : List (List Char × List Char)}
    {k v : List Char} (hm : keysLower m = true)
    (hk : (k.all fun c => !('A' ≤ c && c ≤ 'Z')) = true) :
    keysLower (hmInsert m k v) = true := by
  induction m with
  | nil =>
    simp only [hmInsert, keysLower, List.all_cons, List.all_nil, Bool.and_true]
    exact hk
  | cons kv rest ih =>
    obtain ⟨k', v'⟩ := kv
    rw [keysLower, List.all_cons] at hm
    obtain ⟨h1, h2⟩ := Bool.and_eq_true_iff.mp hm
    by_cases he : k' = k
    · rw [hmInsert, if_pos he, keysLower, List.all_cons]
      exact Bool.and_eq_true_iff.mpr ⟨hk, h2⟩
    · rw [hmInsert, if_neg he, keysLower, List.all_cons]
      exact Bool.and_eq_true_iff.mpr ⟨h1, ih h2⟩

/-- Every key produced by the lower-casing insertion fold has no
upper-case letters. -/
theorem buildMap_keysLower (l : List (List Char × List Char)) :
    keysLower (buildMap l) = true := by
  have key : ∀ (acc : List (List Char × List Char)), keysLower acc = true →
      keysLower (l.foldl
        (fun m kv => hmInsert m (kv.1.map Char.toLower) kv.2) acc) = true := by
    induction l with
    | nil => intro acc h; simpa using h
    | cons kv rest ih =>
      intro acc h
      rw [List.foldl_cons]
      refine ih _ ?_
      refine hmInsert_keysLower h ?_
      rw [List.all_map]
      refine List.all_eq_true.mpr ?_
      intro c _
      simp only [Function.comp_apply]
      rw [toLower_no_upper]
      rfl
  exact key [] rfl

/-- Every mapping returned by `tag_list` has lower-cased keys. -/
theorem tag_list_keysLower {i r : List Char}
    {m : List (List Char × List Char)} (h : tag_list i = .ok r m) :
    keysLower m = true := by
  unfold tag_list PResult.pmap at h
  split at h
  · simp only [PResult.ok.injEq] at h
    rw [← h.2]
    exact buildMap_keysLower _
  · exact absurd h (by simp)
  · exact absurd h (by simp)

/-- A successful `@PREAMBLE` alternative yields the `Preamble` marker. -/
theorem bibEntryPreamble_shape {i r : List Char} {v : BibItem}
    (h : bibEntryPreamble i = .ok r v) : v = .preamble := by
  unfold bibEntryPreamble PResult.bind at h
  repeat (first | split at h | dsimp only at h)
  all_goals simp_all

/-- A successful `@COMMENT` alternative yields the `Comment` marker. -/
theorem bibEntryComment_shape {i r : List Char} {v : BibItem}
    (h : bibEntryComment i = .ok r v) : v = .comment := by
  unfold bibEntryComment PResult.bind at h
  repeat (first | split at h | dsimp only at h)
  all_goals simp_all

/-- A successful `@STRING` alternative yields a `String` item whose
mapping comes from a `tag_list` parse. -/
theorem bibEntryString_tags {i r : List Char} {v : BibItem}
    (h : bibEntryString i = .ok r v) :
    ∃ j rj m, tag_list j = .ok rj m ∧ v = .string m := by
  unfold bibEntryString PResult.bind at h
  repeat (first | split at h | dsimp only at h)
  all_goals cases h
  exact ⟨_, _, _, by assumption, rfl⟩

/-- A successful generic-entry alternative yields an `Entry` whose type
is upper-cased and whose mapping comes from a `tag_list` parse. -/
theorem bibEntryEntry_tags {i r : List Char} {v : BibItem}
    (h : bibEntryEntry i = .ok r v) :
    ∃ (j rj : List Char) (m : List (List Char × List Char)) (typ label : List Char), tag_list j = .ok rj m ∧
      v = .entry (List.map Char.toUpper typ) label m := by
  unfold bibEntryEntry PResult.bind at h
  repeat (first | split at h | dsimp only at h)
  all_goals cases h
  exact ⟨_, _, _, _, _, by assumption, rfl⟩

/-!
## Claims
-/

/-- C1: the claim states that a buffer containing an entry whose
structural prefix matches but whose body is malformed (an unmatched `{`
in a value) makes the document parse fail as a whole with the
parse-failure signal and no items.  Counterexample: on a buffer with one
well-formed entry followed by such a malformed entry, the parse stage of
`BibItem::load` returns success with the well-formed entry — neither the
failure signal nor an empty item sequence. -/
theorem c1_counterexample :
    loadParsed ("@article\x7bok1, a = \x7bb\x7d\x7d\n@article\x7bbad, t = \x7bx".data) =
      some [.entry "ARTICLE".data "ok1".data [("a".data, "b".data)]] := by
  decide

/-- C1 (amended): when the item dispatcher stops at a position where an
entry's structural prefix (`@`) is present but the recognized item is
malformed (`bib_entry` fails there), the document parser nevertheless
returns success with the items accumulated before that position, in
input order; the malformed entry and everything after it are silently
discarded, exactly as for unrecognized trailing content, and the
parse-failure signal is not produced. -/
theorem c1_amended (s rest r1 rA : List Char) (its : List BibItem)
    (h1 : bibfileLoop (s.length + 1) s [] = .ok rest its)
    (h2 : sp rest = .ok r1 ())
    (h3 : tagTok ['@'] r1 = .ok rA ['@'])
    (h4 : bib_entry r1 = .err) :
    bibfile s = .ok r1 its ∧ loadParsed s = some its := by
  have hb : bibfile s = .ok r1 its := by
    unfold bibfile
    rw [h1]
    simp only [PResult.bind_ok]
    rw [h2]
    rfl
  exact ⟨hb, by unfold loadParsed; rw [hb]⟩

/-- Witness for the amended C1 at a concrete malformed buffer: one good
entry followed by an entry with an unmatched brace in a value. -/
theorem c1_amended_witness :
    bibfile ("@article\x7bok1, a = \x7bb\x7d\x7d\n@article\x7bbad, t = \x7bx".data) =
      .ok ("@article\x7bbad, t = \x7bx".data)
        [.entry "ARTICLE".data "ok1".data [("a".data, "b".data)]] ∧
    loadParsed ("@article\x7bok1, a = \x7bb\x7d\x7d\n@article\x7bbad, t = \x7bx".data) =
      some [.entry "ARTICLE".data "ok1".data [("a".data, "b".data)]] :=
  c1_amended ("@article\x7bok1, a = \x7bb\x7d\x7d\n@article\x7bbad, t = \x7bx".data)
    ("@article\x7bbad, t = \x7bx".data) ("@article\x7bbad, t = \x7bx".data)
    ("article\x7bbad, t = \x7bx".data) _ (by decide) (by decide) (by decide) (by decide)

/-- C2: the claim states that an `@PREAMBLE` or `@COMMENT` item with a
body is consumed (body recognized and discarded), so a following entry
is still parsed.  Counterexample: the dispatcher consumes only the
keyword; with a body present, the body is left in the input, the
document parse stops at it, and the following well-formed entry does
not appear in the output. -/
theorem c2_counterexample :
    bibfile ("@PREAMBLE\x7bx\x7d @article\x7bl, t = \x7bv\x7d\x7d .".data) =
      .ok ("\x7bx\x7d @article\x7bl, t = \x7bv\x7d\x7d .".data) [.preamble] := by
  decide

/-- C2 (amended): `@PREAMBLE` and `@COMMENT` produce marker-only items
but consume only the keyword itself; any body is left unconsumed, so a
following entry is parsed only when no body intervenes, and a
body-bearing preamble or comment causes the document parse to stop
there, discarding the rest. -/
theorem c2_amended :
    bib_entry ("@PREAMBLE\x7bx\x7d @article\x7bl, t = \x7bv\x7d\x7d .".data) =
      .ok ("\x7bx\x7d @article\x7bl, t = \x7bv\x7d\x7d .".data) .preamble ∧
    bibfile ("@PREAMBLE @article\x7bl, t = \x7bv\x7d\x7d .".data) =
      .ok ['.'] [.preamble, .entry "ARTICLE".data "l".data [("t".data, "v".data)]] ∧
    bibfile ("@COMMENT\x7bx\x7d @article\x7bl, t = \x7bv\x7d\x7d .".data) =
      .ok ("\x7bx\x7d @article\x7bl, t = \x7bv\x7d\x7d .".data) [.comment] := by
  refine ⟨by decide, by decide, by decide⟩

/-- C3: the claim states that once a structural prefix (such as the
`@STRING` keyword) has uniquely identified a dispatcher alternative,
failure of the rest of that alternative is fatal and the dispatcher
does not try the remaining alternatives.  Counterexample: on
`@STRING{label, key = {v}} .`, the `@STRING` alternative matches its
keyword but fails on the body, and the dispatcher falls through to the
generic-entry alternative, which succeeds and produces an `Entry` with
entry type `STRING` — the failure is not fatal at all. -/
theorem c3_counterexample :
    bibEntryString ("@STRING\x7blabel, key = \x7bv\x7d\x7d .".data) = .err ∧
    bib_entry ("@STRING\x7blabel, key = \x7bv\x7d\x7d .".data) =
      .ok ['.'] (.entry "STRING".data "label".data [("key".data, "v".data)]) := by
  refine ⟨by decide, by decide⟩

/-- C3 (amended): the dispatcher's alternatives are speculative, not
committed: whenever the `@STRING` alternative fails with an error —
including after its keyword prefix has matched — the dispatcher goes on
to try the `@PREAMBLE`, `@COMMENT` and generic-entry alternatives on
the same input. -/
theorem c3_amended (i : List Char) (h : bibEntryString i = .err) :
    bibEntryCore i =
      ((bibEntryPreamble i).orElse fun _ =>
        (bibEntryComment i).orElse fun _ => bibEntryEntry i) := by
  unfold bibEntryCore
  rw [h]
  rfl

/-- Witness for the amended C3: at the concrete input whose `@STRING`
alternative matched the keyword and then failed, the dispatcher result
is that of the remaining alternatives. -/
theorem c3_amended_witness :
    bibEntryCore ("@STRING\x7blabel, key = \x7bv\x7d\x7d .".data) =
      ((bibEntryPreamble ("@STRING\x7blabel, key = \x7bv\x7d\x7d .".data)).orElse fun _ =>
        (bibEntryComment ("@STRING\x7blabel, key = \x7bv\x7d\x7d .".data)).orElse fun _ =>
          bibEntryEntry ("@STRING\x7blabel, key = \x7bv\x7d\x7d .".data)) :=
  c3_amended _ (by decide)

/-- C5: the claim states that whitespace may be inserted between any two
adjacent tokens of any item, including between `@` and the keyword, so
that `@ STRING {...}` still parses as a StringMacro.  Counterexample:
`@STRING` is matched as one single token, so `@ STRING {k = "v"} .`
does not parse as a StringMacro — the dispatcher falls to the
generic-entry alternative, which needs a label and a comma, and the
whole item parse fails — while the same input without the inner space
succeeds. -/
theorem c5_counterexample :
    bib_entry ("@ STRING \x7bk = \"v\"\x7d .".data) = .err ∧
    bib_entry ("@STRING \x7bk = \"v\"\x7d .".data) =
      .ok ['.'] (.string [("k".data, "v".data)]) := by
  refine ⟨by decide, by decide⟩

/-- C5 (amended): whitespace is tolerated between the keyword and the
opening delimiter in every alternative, and between `@` and the entry
type in the generic-entry alternative; but `@STRING`, `@PREAMBLE` and
`@COMMENT` are single tokens, so whitespace between `@` and those
keywords makes the keyword alternatives inapplicable (`@ STRING {...}`
is not a StringMacro). -/
theorem c5_amended :
    bib_entry ("@STRING \x7bk = \"v\"\x7d .".data) =
      bib_entry ("@STRING\x7bk = \"v\"\x7d .".data) ∧
    bib_entry ("@ article \x7b label , date = 2000 \x7d .".data) =
      bib_entry ("@article\x7blabel,date=2000\x7d .".data) ∧
    bib_entry ("@article\x7blabel,date=2000\x7d .".data) =
      .ok ['.'] (.entry "ARTICLE".data "label".data [("date".data, "2000".data)]) ∧
    bib_entry ("@ STRING \x7bk = \"v\"\x7d .".data) = .err := by
  refine ⟨by decide, by decide, by decide, by decide⟩

/-- C6: the claim states that a single trailing comma before the closing
`}` is tolerated in the tag lists of both typed-entry bodies and
`@STRING` bodies.  Counterexample: the `@STRING` alternative has no
`opt!(tag!(","))` and `separated_list!` never consumes a trailing
separator, so `@STRING{kk = "vv",} .` fails to parse as an item, while
the same body without the trailing comma succeeds. -/
theorem c6_counterexample :
    bib_entry ("@STRING\x7bkk = \"vv\",\x7d .".data) = .err ∧
    bib_entry ("@STRING\x7bkk = \"vv\"\x7d .".data) =
      .ok ['.'] (.string [("kk".data, "vv".data)]) := by
  refine ⟨by decide, by decide⟩

/-- C6 (amended): a single trailing comma after the last pair is
tolerated in typed-entry bodies (via the entry alternative's
`opt!(tag!(","))`), producing the same mapping as without it; in
`@STRING` bodies there is no such option and a trailing comma makes the
item fail. -/
theorem c6_amended :
    bib_entry ("@article\x7bl, a = \x7bx\x7d, b = \x7by\x7d,\x7d .".data) =
      bib_entry ("@article\x7bl, a = \x7bx\x7d, b = \x7by\x7d\x7d .".data) ∧
    bib_entry ("@article\x7bl, a = \x7bx\x7d, b = \x7by\x7d\x7d .".data) =
      .ok ['.'] (.entry "ARTICLE".data "l".data
        [("a".data, "x".data), ("b".data, "y".data)]) ∧
    bib_entry ("@STRING\x7bkk = \"vv\",\x7d .".data) = .err := by
  refine ⟨by decide, by decide, by decide⟩

/-- C4: for a buffer consisting of zero or more well-formed items
followed by a suffix at which no dispatcher alternative matches, the
document parse succeeds, returning exactly the items accumulated before
that position in input order, and the remaining suffix is silently
discarded with no error.  The hypotheses state that the repetition
stage stopped at `rest` with `items`, that the dispatcher (with its
leading whitespace skip, under `complete!`) fails at `rest`, and that
the trailing whitespace skip finds a non-whitespace character there. -/
theorem c4_truncation (s rest r2 : List Char) (items : List BibItem)
    (h1 : bibfileLoop (s.length + 1) s [] = .ok rest items)
    (h2 : completeP ((sp rest).bind fun i1 _ => bib_entry i1) = .err)
    (h3 : sp rest = .ok r2 ()) :
    bibfile s = .ok r2 items ∧ loadParsed s = some items := by
  have hb : bibfile s = .ok r2 items := by
    unfold bibfile
    rw [h1]
    simp only [PResult.bind_ok]
    rw [h3]
    rfl
  exact ⟨hb, by unfold loadParsed; rw [hb]⟩

/-- Witness for C4: a well-formed entry followed by unrecognized
garbage; the parse succeeds with exactly that entry and the garbage is
dropped. -/
theorem c4_truncation_witness :
    bibfile ("@article\x7ba, x = \x7by\x7d\x7d @#garbage".data) =
      .ok ("@#garbage".data) [.entry "ARTICLE".data "a".data [("x".data, "y".data)]] ∧
    loadParsed ("@article\x7ba, x = \x7by\x7d\x7d @#garbage".data) =
      some [.entry "ARTICLE".data "a".data [("x".data, "y".data)]] :=
  c4_truncation ("@article\x7ba, x = \x7by\x7d\x7d @#garbage".data) ("@#garbage".data)
    ("@#garbage".data) _ (by decide) (by decide) (by decide)

/-- C7: every item produced by a successful item parse satisfies the
normalization invariant — an `Entry`'s type contains no lower-case
letter (it is stored upper-cased) and every key of any tag mapping
(`Entry` or `StringMacro`) contains no upper-case letter (stored
lower-cased); moreover, at a duplicated key the later value wins with
no error (`a=1,a=2` yields the single pair `a ↦ 2`), and a value is
stored with its original casing with only the delimiters stripped. -/
theorem c7_normalization :
    (∀ (i r : List Char) (it : BibItem),
        bib_entry i = .ok r it → ItemInv it = true) ∧
    tag_list ("a=1,a=2\x7d".data) = .ok ['}'] [("a".data, "2".data)] ∧
    tag_list ("k = \"Va\"\x7d".data) = .ok ['}'] [("k".data, "Va".data)] := by
  refine ⟨?_, by decide, by decide⟩
  intro i r it h
  unfold bib_entry at h
  cases hc : bibEntryCore i with
  | err => rw [hc] at h; exact absurd h (by simp)
  | incomplete => rw [hc] at h; exact absurd h (by simp)
  | ok r0 v0 =>
    rw [hc] at h
    simp only [PResult.bind_ok] at h
    cases hsp : sp r0 with
    | err => rw [hsp] at h; exact absurd h (by simp)
    | incomplete => rw [hsp] at h; exact absurd h (by simp)
    | ok r2 u =>
      rw [hsp] at h
      simp only [PResult.bind_ok] at h
      cases h
      unfold bibEntryCore at hc
      cases hA : bibEntryString i with
      | ok rA vA =>
        rw [hA] at hc
        simp only [PResult.orElse_ok] at hc
        cases hc
        obtain ⟨j, rj, m, hm, hv⟩ := bibEntryString_tags hA
        rw [hv]
        show keysLower m = true
        exact tag_list_keysLower hm
      | incomplete => rw [hA] at hc; exact absurd hc (by simp [PResult.orElse])
      | err =>
        rw [hA] at hc
        simp only [PResult.orElse_err] at hc
        cases hB : bibEntryPreamble i with
        | ok rB vB =>
          rw [hB] at hc
          simp only [PResult.orElse_ok] at hc
          cases hc
          rw [bibEntryPreamble_shape hB]
          rfl
        | incomplete => rw [hB] at hc; exact absurd hc (by simp [PResult.orElse])
        | err =>
          rw [hB] at hc
          simp only [PResult.orElse_err] at hc
          cases hC : bibEntryComment i with
          | ok rC vC =>
            rw [hC] at hc
            simp only [PResult.orElse_ok] at hc
            cases hc
            rw [bibEntryComment_shape hC]
            rfl
          | incomplete => rw [hC] at hc; exact absurd hc (by simp [PResult.orElse])
          | err =>
            rw [hC] at hc
            simp only [PResult.orElse_err] at hc
            cases hD : bibEntryEntry i with
            | ok rD vD =>
              rw [hD] at hc
              cases hc
              obtain ⟨j, rj, m, typ, label, hm, hv⟩ := bibEntryEntry_tags hD
              rw [hv]
              show (typeUpper (List.map Char.toUpper typ) && keysLower m) = true
              have h1 : typeUpper (List.map Char.toUpper typ) = true := by
                rw [typeUpper, List.all_map]
                refine List.all_eq_true.mpr ?_
                intro c _
                simp only [Function.comp_apply]
                rw [toUpper_no_lower]
                rfl
              rw [h1, tag_list_keysLower hm]
              rfl
            | incomplete => rw [hD] at hc; exact absurd hc (by simp)
            | err => rw [hD] at hc; exact absurd hc (by simp)

/-- Witness for C7: the invariant holds for the item parsed from a
concrete input, obtained by applying the universal statement. -/
theorem c7_normalization_witness :
    ItemInv (.entry "ARTICLE".data "label".data
      [("date".data, "2000".data)]) = true :=
  c7_normalization.1 ("@article\x7blabel, date = 2000\x7d .".data) ['.'] _ (by decide)

/-- C10: keyword dispatch is case-sensitive.  Only the `@STRING`
alternative can produce a `StringMacro` item (first conjunct: whenever
the dispatcher yields a `String` item, the `@STRING` alternative itself
produced it, so the exact token `@STRING` was present); a lower-case
`@string` with an entry-shaped body parses as an `Entry` with type
`STRING` and label `label`, while upper-case `@STRING`, `@PREAMBLE`,
`@COMMENT` select their alternatives and lower-case `@preamble` or
`@comment` with a body fail entirely (they dispatch to the generic
entry alternative, which requires a label and comma). -/
theorem c10_case_sensitive :
    (∀ (i r : List Char) (m : List (List Char × List Char)),
        bibEntryCore i = .ok r (.string m) →
        bibEntryString i = .ok r (.string m)) ∧
    bib_entry ("@string\x7blabel, key = \x7bv\x7d\x7d .".data) =
      .ok ['.'] (.entry "STRING".data "label".data [("key".data, "v".data)]) ∧
    bib_entry ("@STRING\x7bkey = \x7bv\x7d\x7d .".data) =
      .ok ['.'] (.string [("key".data, "v".data)]) ∧
    bib_entry ("@PREAMBLE,".data) = .ok [','] .preamble ∧
    bib_entry ("@COMMENT junk".data) = .ok "junk".data .comment ∧
    bib_entry ("@preamble\x7bx\x7d .".data) = .err ∧
    bib_entry ("@comment\x7bx\x7d .".data) = .err := by
  refine ⟨?_, by decide, by decide, by decide, by decide, by decide, by decide⟩
  intro i r m h
  unfold bibEntryCore at h
  cases hA : bibEntryString i with
  | ok rA vA =>
    rw [hA] at h
    simp only [PResult.orElse_ok] at h
    exact h
  | incomplete => rw [hA] at h; exact absurd h (by simp [PResult.orElse])
  | err =>
    rw [hA] at h
    simp only [PResult.orElse_err] at h
    cases hB : bibEntryPreamble i with
    | ok rB vB =>
      rw [hB] at h
      simp only [PResult.orElse_ok] at h
      rw [bibEntryPreamble_shape hB] at h
      exact absurd h (by simp)
    | incomplete => rw [hB] at h; exact absurd h (by simp [PResult.orElse])
    | err =>
      rw [hB] at h
      simp only [PResult.orElse_err] at h
      cases hC : bibEntryComment i with
      | ok rC vC =>
        rw [hC] at h
        simp only [PResult.orElse_ok] at h
        rw [bibEntryComment_shape hC] at h
        exact absurd h (by simp)
      | incomplete => rw [hC] at h; exact absurd h (by simp [PResult.orElse])
      | err =>
        rw [hC] at h
        simp only [PResult.orElse_err] at h
        cases hD : bibEntryEntry i with
        | ok rD vD =>
          rw [hD] at h
          obtain ⟨j, rj, m', typ, label, hm, hv⟩ := bibEntryEntry_tags hD
          rw [hv] at h
          exact absurd h (by simp)
        | incomplete => rw [hD] at h; exact absurd h (by simp)
        | err => rw [hD] at h; exact absurd h (by simp)

/-- Witness for C10: at a concrete input the dispatcher yields a
`StringMacro`, and by the theorem the `@STRING` alternative itself
produced it. -/
theorem c10_case_sensitive_witness :
    bibEntryString ("@STRING\x7bkey = \x7bv\x7d\x7d x".data) =
      .ok (" x".data) (.string [("key".data, "v".data)]) :=
  c10_case_sensitive.1 ("@STRING\x7bkey = \x7bv\x7d\x7d x".data) (" x".data) _ (by decide)

/-!
## Run lemmas for the round-trip and nested-brace claims
-/

/-- Character range extraction for lower-case letters. -/
theorem lower_range {c : Char} (h : ('a' ≤ c && c ≤ 'z') = true) :
    97 ≤ c.toNat ∧ c.toNat ≤ 122 := by
  rw [Bool.and_eq_true_iff] at h
  obtain ⟨h1, h2⟩ := h
  constructor
  · simpa [Char.le_def, Char.toNat] using of_decide_eq_true h1
  · simpa [Char.le_def, Char.toNat] using of_decide_eq_true h2

/-- Character range extraction for upper-case letters. -/
theorem upper_range {c : Char} (h : ('A' ≤ c && c ≤ 'Z') = true) :
    65 ≤ c.toNat ∧ c.toNat ≤ 90 := by
  rw [Bool.and_eq_true_iff] at h
  obtain ⟨h1, h2⟩ := h
  constructor
  · simpa [Char.le_def, Char.toNat] using of_decide_eq_true h1
  · simpa [Char.le_def, Char.toNat] using of_decide_eq_true h2

/-- Character range cases for nom's alphanumeric class. -/
theorem alnum_cases {c : Char} (h : isAlphaNumNom c = true) :
    (97 ≤ c.toNat ∧ c.toNat ≤ 122) ∨ (65 ≤ c.toNat ∧ c.toNat ≤ 90) ∨
    (48 ≤ c.toNat ∧ c.toNat ≤ 57) := by
  rw [isAlphaNumNom, isAlphaNom] at h
  rcases Bool.or_eq_true_iff.mp h with h1 | h1
  · rcases Bool.or_eq_true_iff.mp h1 with h2 | h2
    · exact Or.inl (lower_range h2)
    · exact Or.inr (Or.inl (upper_range h2))
  · rw [Bool.and_eq_true_iff] at h1
    obtain ⟨h2, h3⟩ := h1
    refine Or.inr (Or.inr ⟨?_, ?_⟩)
    · simpa [Char.le_def, Char.toNat] using of_decide_eq_true h2
    · simpa [Char.le_def, Char.toNat] using of_decide_eq_true h3

/-- An alphanumeric character differs from any character outside the
three alphanumeric ranges. -/
theorem alnum_ne_of_ranges {c d : Char} (h : isAlphaNumNom c = true)
    (hd : d.toNat < 48 ∨ (57 < d.toNat ∧ d.toNat < 65) ∨
      (90 < d.toNat ∧ d.toNat < 97) ∨ 122 < d.toNat) : c ≠ d := by
  intro he
  subst he
  rcases alnum_cases h with h1 | h1 | h1 <;> omega

/-- An alphanumeric character is not `ws!` whitespace. -/
theorem alnum_not_ws {c : Char} (h : isAlphaNumNom c = true) :
    isWsNom c = false := by
  have hc := alnum_cases h
  simp only [isWsNom, Bool.or_eq_false_iff, decide_eq_false_iff_not]
  refine ⟨⟨⟨?_, ?_⟩, ?_⟩, ?_⟩ <;>
    · intro he
      subst he
      revert hc
      decide

/-- An alphanumeric character is not one of the string-special
characters. -/
theorem alnum_not_special {c : Char} (h : isAlphaNumNom c = true) :
    isStrSpecial c = false := by
  have hc := alnum_cases h
  simp only [isStrSpecial, Bool.or_eq_false_iff, decide_eq_false_iff_not]
  refine ⟨⟨?_, ?_⟩, ?_⟩ <;>
    · intro he
      subst he
      revert hc
      decide

/-- Upper-case letters are in nom's alpha class. -/
theorem upper_isAlpha {c : Char} (h : ('A' ≤ c && c ≤ 'Z') = true) :
    isAlphaNom c = true := by
  rw [isAlphaNom, h]
  simp

/-- Lower-case letters are in nom's alpha class. -/
theorem lower_isAlpha {c : Char} (h : ('a' ≤ c && c ≤ 'z') = true) :
    isAlphaNom c = true := by
  rw [isAlphaNom, h]
  simp

/-- Alpha characters are alphanumeric. -/
theorem alpha_isAlnum {c : Char} (h : isAlphaNom c = true) :
    isAlphaNumNom c = true := by
  rw [isAlphaNumNom, h]
  simp

/-- Lower-casing an already lower-case letter is the identity. -/
theorem toLower_id_lower {c : Char} (h : ('a' ≤ c && c ≤ 'z') = true) :
    Char.toLower c = c := by
  obtain ⟨h1, h2⟩ := lower_range h
  unfold Char.toLower
  simp only [ge_iff_le, decide_eq_true_eq]
  rw [if_neg]
  omega

/-- Upper-casing an already upper-case letter is the identity. -/
theorem toUpper_id_upper {c : Char} (h : ('A' ≤ c && c ≤ 'Z') = true) :
    Char.toUpper c = c := by
  obtain ⟨h1, h2⟩ := upper_range h
  unfold Char.toUpper
  simp only [ge_iff_le, decide_eq_true_eq]
  rw [if_neg]
  omega

/-- Lists of different lengths are different. -/
theorem ne_of_len {α : Type} {l1 l2 : List α} (h : l1.length ≠ l2.length) :
    l1 ≠ l2 := fun he => h (he ▸ rfl)

/-- A maximal run: `takeWhile` and `dropWhile` split `w ++ c :: t` at `c`
when all of `w` satisfies the predicate and `c` does not. -/
theorem takeWhile_append_run {p : Char → Bool} :
    ∀ (w : List Char) (c : Char) (t : List Char), w.all p = true →
      p c = false →
      (w ++ c :: t).takeWhile p = w ∧ (w ++ c :: t).dropWhile p = c :: t := by
  intro w
  induction w with
  | nil =>
    intro c t _ hc
    simp [List.takeWhile, List.dropWhile, hc]
  | cons a as ih =>
    intro c t hall hc
    rw [List.all_cons] at hall
    obtain ⟨h1, h2⟩ := Bool.and_eq_true_iff.mp hall
    obtain ⟨iht, ihd⟩ := ih c t h2 hc
    constructor
    · simp [List.takeWhile, h1, iht]
    · simp [List.dropWhile, h1, ihd]

/-- `takeWhile1` on a maximal nonempty run followed by a failing
character. -/
theorem takeWhile1_run {p : Char → Bool} (w : List Char) (c : Char)
    (t : List Char) (hall : w.all p = true) (hc : p c = false)
    (hne : w ≠ []) : takeWhile1 p (w ++ c :: t) = .ok (c :: t) w := by
  obtain ⟨ht, hd⟩ := takeWhile_append_run w c t hall hc
  simp only [takeWhile1, ht]
  rw [if_neg, if_neg]
  · rw [List.drop_left]
  · simp [hne]
  · simp only [List.length_append, List.length_cons]
    omega

/-- The whitespace eater consumes a whitespace run and stops at the
first non-whitespace character. -/
theorem sp_run : ∀ (w : List Char) (c : Char) (t : List Char),
    w.all isWsNom = true → isWsNom c = false →
    sp (w ++ c :: t) = .ok (c :: t) () := by
  intro w
  induction w with
  | nil =>
    intro c t _ hc
    simp [sp, hc]
  | cons a as ih =>
    intro c t hall hc
    rw [List.all_cons] at hall
    obtain ⟨h1, h2⟩ := Bool.and_eq_true_iff.mp hall
    simp only [List.cons_append, sp, h1, if_true]
    exact ih c t h2 hc

/-- The whitespace eater at a non-whitespace head consumes nothing. -/
theorem sp_nonws {c : Char} (t : List Char) (h : isWsNom c = false) :
    sp (c :: t) = .ok (c :: t) () := by
  simp [sp, h]

/-- The whitespace eater on all-whitespace input (including empty input)
returns `Incomplete`. -/
theorem sp_allws : ∀ (w : List Char), w.all isWsNom = true →
    sp w = .incomplete := by
  intro w
  induction w with
  | nil => intro _; rfl
  | cons a as ih =>
    intro hall
    rw [List.all_cons] at hall
    obtain ⟨h1, h2⟩ := Bool.and_eq_true_iff.mp hall
    simp only [sp, h1, if_true]
    exact ih h2

/-- `tag!` on input starting with exactly the tag. -/
theorem tagTok_self (w t : List Char) : tagTok w (w ++ t) = .ok t w := by
  unfold tagTok
  rw [if_pos]
  · congr 1
    exact List.drop_left w t
  · exact List.isPrefixOf_iff_prefix.mpr (List.prefix_append w t)

/-- `tag!` errors when the first characters differ. -/
theorem tagTok_ne {a b : Char} (as bs : List Char) (h : a ≠ b) :
    tagTok (a :: as) (b :: bs) = .err := by
  unfold tagTok
  rw [if_neg, if_neg]
  · simp [List.isPrefixOf, Ne.symm h]
  · simp [List.isPrefixOf, h]

@[simp]
theorem completeP_ok {α : Type} (r : List Char) (v : α) :
    completeP (.ok r v) = .ok r v := rfl

@[simp]
theorem completeP_err {α : Type} : completeP (α := α) .err = .err := rfl

@[simp]
theorem completeP_incomplete {α : Type} :
    completeP (α := α) .incomplete = .err := rfl

/-- The segment parser fails at a closing brace, whatever the nesting
fuel: both delimited alternatives fail on the first character and so
does `is_not!`. -/
theorem segStep_closing (f : Nat) (xs : List Char) :
    segStep f ('}' :: xs) = .err := by
  have h1 : tagTok ['{'] ('}' :: xs) = .err := tagTok_ne [] xs (by decide)
  have h2 : tagTok ['"'] ('}' :: xs) = .err := tagTok_ne [] xs (by decide)
  have h3 : any_string ('}' :: xs) = .err := by
    have ht : List.takeWhile (fun c => !isStrSpecial c) ('}' :: xs) = [] := by
      simp [List.takeWhile_cons, isStrSpecial]
    simp [any_string, takeWhile1, ht]
  simp [segStep, segOf, delimOf, bracedOf, quotedOf, h1, h2, h3]

/-- The segment parser returns `Incomplete` on empty input, whatever the
nesting fuel. -/
theorem segStep_nil (f : Nat) : segStep f [] = .incomplete := by
  have h1 : tagTok ['{'] [] = .incomplete := by decide
  have h2 : tagTok ['"'] [] = .incomplete := by decide
  have h3 : any_string [] = .incomplete := by decide
  simp [segStep, segOf, delimOf, bracedOf, quotedOf, h1, h2, h3]

/-- `string` on empty input: error at zero fuel, otherwise
`Incomplete`. -/
theorem stringCore_nil (f : Nat) :
    stringCore f [] = .err ∨ stringCore f [] = .incomplete := by
  cases f with
  | zero => exact Or.inl rfl
  | succ f' =>
    right
    show many1U (segStep f') ((List.nil (α := Char)).length + 1) [] = .incomplete
    simp [many1U, segStep_nil]

/-- The segment parser fails at a closing double quote at the very end
of input: the speculative quoted-string attempt consumes the quote and
then dies on the empty rest, and `complete!` turns that into an
error. -/
theorem segStep_quoteEnd (f : Nat) : segStep f ['"'] = .err := by
  have h1 : tagTok ['{'] ['"'] = .err := tagTok_ne [] [] (by decide)
  have h2 : tagTok ['"'] ['"'] = .ok [] ['"'] := by decide
  have h3 : any_string ['"'] = .err := by decide
  have h4 : recognizeFrom (stringCore f) [] = .err ∨
      recognizeFrom (stringCore f) [] = .incomplete := by
    rcases stringCore_nil f with h | h <;> simp [recognizeFrom, h]
  rcases h4 with h4 | h4 <;>
    simp [segStep, segOf, delimOf, bracedOf, quotedOf, h1, h2, h3, h4]

/-- A nonempty plain run followed by a string-special character is
consumed as a single `is_not!` segment (the two delimited alternatives
fail on the run's first character). -/
theorem seg_plain (f : Nat) (w : List Char) (x : Char) (xs : List Char)
    (hne : w ≠ []) (hall : (w.all fun c => !isStrSpecial c) = true)
    (hx : isStrSpecial x = true) :
    segStep f (w ++ x :: xs) = .ok (x :: xs) () := by
  obtain ⟨c, w', rfl⟩ : ∃ c w', w = c :: w' := by
    cases w with
    | nil => exact absurd rfl hne
    | cons c w' => exact ⟨c, w', rfl⟩
  rw [List.all_cons] at hall
  obtain ⟨hc, hall'⟩ := Bool.and_eq_true_iff.mp hall
  have hcs : isStrSpecial c = false := by
    revert hc
    cases isStrSpecial c <;> simp
  have hcb : c ≠ '{' := by
    intro he
    rw [he] at hcs
    exact absurd hcs (by decide)
  have hcq : c ≠ '"' := by
    intro he
    rw [he] at hcs
    exact absurd hcs (by decide)
  simp only [List.cons_append]
  have h1 : tagTok ['{'] (c :: (w' ++ x :: xs)) = .err :=
    tagTok_ne [] _ (Ne.symm hcb)
  have h2 : tagTok ['"'] (c :: (w' ++ x :: xs)) = .err :=
    tagTok_ne [] _ (Ne.symm hcq)
  have h3 : any_string (c :: (w' ++ x :: xs)) = .ok (x :: xs) (c :: w') := by
    have hr := takeWhile1_run (p := fun d => !isStrSpecial d) (c :: w') x xs
      hall (by simp [hx]) (by simp)
    simpa only [any_string, List.cons_append] using hr
  simp [segStep, segOf, delimOf, bracedOf, quotedOf, h1, h2, h3]

/-- A braced group whose interior the string grammar consumes exactly is
itself consumed as one delimited segment. -/
theorem seg_braced (f : Nat) (inner X : List Char)
    (h : stringCore f (inner ++ '}' :: X) = .ok ('}' :: X) ()) :
    segStep f ('{' :: (inner ++ '}' :: X)) = .ok X () := by
  have h1 : tagTok ['{'] ('{' :: (inner ++ '}' :: X)) =
      .ok (inner ++ '}' :: X) ['{'] := tagTok_self ['{'] _
  have h2 : recognizeFrom (stringCore f) (inner ++ '}' :: X) =
      .ok ('}' :: X) ((inner ++ '}' :: X).take
        ((inner ++ '}' :: X).length - ('}' :: X).length)) := by
    simp [recognizeFrom, h]
  have h3 : tagTok ['}'] ('}' :: X) = .ok X ['}'] := tagTok_self ['}'] X
  simp [segStep, segOf, delimOf, bracedOf, h1, h2, h3]

/-- `valueSeq` at zero fuel finds nothing. -/
theorem valueSeq_zero (i : List Char) : valueSeq 0 i = none := by
  unfold valueSeq
  simp [valueChunk]

/-- `valueChunk` on empty input finds nothing. -/
theorem valueChunk_nil (fs : Nat) : valueChunk fs [] = none := by
  cases fs <;> simp [valueChunk]

/-- Definitional unfolding of `stringCore` at successor fuel in terms of
`segStep`. -/
theorem stringCore_succ (f : Nat) (i : List Char) :
    stringCore (f + 1) i = many1U (segStep f) (i.length + 1) i := rfl

/-- The head of a `dropWhile` result fails the predicate. -/
theorem dropWhile_head (p : Char → Bool) :
    ∀ (l : List Char), l.dropWhile p = [] ∨
      ∃ y ys, l.dropWhile p = y :: ys ∧ p y = false := by
  intro l
  induction l with
  | nil => exact Or.inl rfl
  | cons a as ih =>
    by_cases ha : p a
    · simpa [List.dropWhile, ha] using ih
    · refine Or.inr ⟨a, as, ?_, by simp [ha]⟩
      simp [List.dropWhile, ha]

/-- All elements of a `takeWhile` result satisfy the predicate. -/
theorem all_takeWhile (p : Char → Bool) :
    ∀ (l : List Char), (l.takeWhile p).all p = true := by
  intro l
  induction l with
  | nil => rfl
  | cons a as ih =>
    by_cases ha : p a
    · simp [List.takeWhile, ha, ih]
    · simp [List.takeWhile, ha]

/-- Unfolding of `valueChunk` at a brace. -/
theorem valueChunk_brace_eq (f : Nat) (cs : List Char) :
    valueChunk (f + 1) ('{' :: cs) =
      match valueSeq f cs with
      | some ('}' :: rest) => some rest
      | _ => none := by
  rw [valueChunk]

/-- Unfolding of `valueChunk` at a non-brace character. -/
theorem valueChunk_ne_eq (f : Nat) (c : Char) (cs : List Char)
    (hcb : c ≠ '{') :
    valueChunk (f + 1) (c :: cs) =
      if isStrSpecial c then none
      else some (List.dropWhile (fun d => !isStrSpecial d) (c :: cs)) := by
  rw [valueChunk]
  exact fun h => hcb h

/-- Core soundness of the value well-formedness checker against the
string grammar: every chunk found by `valueChunk` is consumed as one
segment of `string` (under the tail condition), and every chunk
sequence found by `valueSeq` is consumed exactly by `string`'s segment
loop, stopping at any tail at which the segment parser fails. -/
theorem value_sound (fs : Nat) :
    (∀ i rr, valueChunk fs i = some rr →
      ∃ c, i = c ++ rr ∧ c ≠ [] ∧
        (c.head? = some '{' ∨ rr = [] ∨
          ∃ y ys, rr = y :: ys ∧ isStrSpecial y = true) ∧
        ∀ g t, fs ≤ g + 1 → TailOK c t → segStep g (c ++ t) = .ok t ()) ∧
    (∀ i rr, valueSeq fs i = some rr →
      ∃ w, i = w ++ rr ∧ w ≠ [] ∧
        ∀ g t, fs ≤ g + 1 → SegStop t →
          (∀ lf, w.length < lf →
            manyLoopU (segStep g) lf (w ++ t) = .ok t ()) ∧
          stringCore (g + 1) (w ++ t) = .ok t ()) := by
  induction fs using Nat.strong_induction_on with
  | _ fs IH =>
  have hC : ∀ i rr, valueChunk fs i = some rr →
      ∃ c, i = c ++ rr ∧ c ≠ [] ∧
        (c.head? = some '{' ∨ rr = [] ∨
          ∃ y ys, rr = y :: ys ∧ isStrSpecial y = true) ∧
        ∀ g t, fs ≤ g + 1 → TailOK c t → segStep g (c ++ t) = .ok t () := by
    intro i rr h
    cases fs with
    | zero => exact absurd h (by simp [valueChunk])
    | succ f =>
      cases i with
      | nil => exact absurd h (by simp [valueChunk])
      | cons c cs =>
        by_cases hcb : c = '{'
        · subst hcb
          rw [valueChunk_brace_eq] at h
          split at h
          · rename_i rest hseq
            injection h with hh
            rw [← hh]
            obtain ⟨w_in, hcs, hwne, hcore⟩ :=
              (IH f (Nat.lt_succ_self f)).2 cs ('}' :: rest) hseq
            refine ⟨'{' :: w_in ++ ['}'], ?_, by simp, Or.inl rfl, ?_⟩
            · rw [hcs]
              simp
            · intro g t hg htail
              have hf1 : 1 ≤ f := by
                by_contra hf0
                have hz : f = 0 := by omega
                subst hz
                rw [valueSeq_zero] at hseq
                exact absurd hseq (by simp)
              obtain ⟨g', rfl⟩ : ∃ g', g = g' + 1 := ⟨g - 1, by omega⟩
              have hstop : SegStop ('}' :: t) :=
                ⟨⟨'}', t, rfl, by decide⟩, fun f0 => segStep_closing f0 t⟩
              have hsc := (hcore g' ('}' :: t) (by omega) hstop).2
              have hassoc : ('{' :: w_in ++ ['}']) ++ t =
                  '{' :: (w_in ++ '}' :: t) := by simp
              rw [hassoc]
              exact seg_braced (g' + 1) w_in t hsc
          · exact absurd h (by simp)
        · rw [valueChunk_ne_eq f c cs hcb] at h
          by_cases hsp : isStrSpecial c = true
          · rw [if_pos hsp] at h
            exact absurd h (by simp)
          · rw [if_neg hsp] at h
            injection h with hh
            have hpc' : isStrSpecial c = false := by
              revert hsp
              cases isStrSpecial c <;> simp
            have hpc : (fun d => !isStrSpecial d) c = true := by simp [hpc']
            have htake : (c :: cs).takeWhile (fun d => !isStrSpecial d) =
                c :: cs.takeWhile (fun d => !isStrSpecial d) := by
              simp [List.takeWhile_cons, hpc']
            rw [← hh]
            refine ⟨(c :: cs).takeWhile (fun d => !isStrSpecial d), ?_, ?_, ?_, ?_⟩
            · exact (List.takeWhile_append_dropWhile _ _).symm
            · rw [htake]
              simp
            · rcases dropWhile_head (fun d => !isStrSpecial d) (c :: cs) with
                hd | ⟨y, ys, hd, hy⟩
              · exact Or.inr (Or.inl hd)
              · refine Or.inr (Or.inr ⟨y, ys, hd, ?_⟩)
                simpa using hy
            · intro g t hg htail
              rcases htail with hb | ⟨x, xs, rfl, hx⟩
              · rw [htake] at hb
                simp only [List.head?] at hb
                injection hb with hb
                subst hb
                exact absurd hpc (by decide)
              · exact seg_plain g _ x xs (by rw [htake]; simp)
                  (all_takeWhile _ _) hx
  have hS : ∀ n i rr, i.length ≤ n → valueSeq fs i = some rr →
      ∃ w, i = w ++ rr ∧ w ≠ [] ∧
        ∀ g t, fs ≤ g + 1 → SegStop t →
          (∀ lf, w.length < lf →
            manyLoopU (segStep g) lf (w ++ t) = .ok t ()) ∧
          stringCore (g + 1) (w ++ t) = .ok t () := by
    intro n
    induction n with
    | zero =>
      intro i rr hlen h
      have hnil : i = [] := List.length_eq_zero.mp (by omega)
      subst hnil
      unfold valueSeq at h
      rw [valueChunk_nil] at h
      exact absurd h (by simp)
    | succ n ihn =>
      intro i rr hlen h
      unfold valueSeq at h
      split at h
      · exact absurd h (by simp)
      · rename_i rest hch
        obtain ⟨c1, hi, hc1ne, hinfo, hseg⟩ := hC i rest hch
        have hdec : rest.length < i.length := by
          rw [hi, List.length_append]
          have := List.length_pos.mpr hc1ne
          omega
        rw [dif_pos hdec] at h
        split at h
        case _ r2 hsq =>
          injection h with hh
          rw [← hh]
          obtain ⟨w2, hrest, hw2ne, hcore2⟩ := ihn rest r2 (by omega) hsq
          refine ⟨c1 ++ w2, ?_, by simp [hc1ne], ?_⟩
          · rw [hi, hrest, List.append_assoc]
          · intro g t hg hstop
            have htail : TailOK c1 (w2 ++ t) := by
              rcases hinfo with hb | hnil1 | ⟨y, ys, hre, hys⟩
              · exact Or.inl hb
              · rw [hnil1] at hrest
                exact absurd hrest.symm (by simp [hw2ne])
              · rw [hre] at hrest
                obtain ⟨w2h, w2t, rfl⟩ : ∃ a b, w2 = a :: b := by
                  cases w2 with
                  | nil => exact absurd rfl hw2ne
                  | cons a b => exact ⟨a, b, rfl⟩
                have hw2y : w2h = y := by
                  rw [List.cons_append] at hrest
                  injection hrest with h1 h2
                  exact h1.symm
                subst hw2y
                exact Or.inr ⟨w2h, w2t ++ t, by simp, hys⟩
            have hseg1 := hseg g (w2 ++ t) hg htail
            have hc2 := hcore2 g t hg hstop
            have hne1 : w2 ++ t ≠ c1 ++ (w2 ++ t) := by
              apply ne_of_len
              simp only [List.length_append]
              have := List.length_pos.mpr hc1ne
              omega
            have hemp : (c1 ++ (w2 ++ t)).isEmpty = false := by
              cases c1 with
              | nil => exact absurd rfl hc1ne
              | cons a b => rfl
            have hseg1' : segStep g (c1 ++ (w2 ++ t)) = .ok (w2 ++ t) () := by
              rw [← List.append_assoc]
              rw [List.append_assoc]
              exact hseg1
            constructor
            · intro lf hlf
              obtain ⟨lf', rfl⟩ : ∃ lf', lf = lf' + 1 := ⟨lf - 1, by omega⟩
              rw [List.append_assoc]
              simp only [manyLoopU]
              rw [hemp]
              simp only [Bool.false_eq_true, if_false]
              simp only [hseg1', if_neg hne1]
              refine (hc2).1 lf' ?_
              rw [List.length_append] at hlf
              have := List.length_pos.mpr hc1ne
              omega
            · rw [List.append_assoc, stringCore_succ]
              simp only [many1U]
              simp only [hseg1', if_neg hne1]
              refine (hc2).1 ((c1 ++ (w2 ++ t)).length + 1) ?_
              simp only [List.length_append]
              omega
        case _ hsq =>
          injection h with hh
          rw [← hh]
          refine ⟨c1, hi, hc1ne, ?_⟩
          intro g t hg hstop
          obtain ⟨⟨x, xs, hxt, hx⟩, hstop2⟩ := hstop
          subst hxt
          have htail : TailOK c1 (x :: xs) := Or.inr ⟨x, xs, rfl, hx⟩
          have hseg1 := hseg g (x :: xs) hg htail
          have hne1 : x :: xs ≠ c1 ++ x :: xs := by
            apply ne_of_len
            rw [List.length_append]
            have := List.length_pos.mpr hc1ne
            omega
          have hemp : (c1 ++ x :: xs).isEmpty = false := by
            cases c1 with
            | nil => exact absurd rfl hc1ne
            | cons a b => rfl
          constructor
          · intro lf hlf
            have hlf2 : 2 ≤ lf := by
              have := List.length_pos.mpr hc1ne
              omega
            obtain ⟨lf'', rfl⟩ : ∃ lf'', lf = lf'' + 2 := ⟨lf - 2, by omega⟩
            simp only [manyLoopU]
            rw [hemp]
            simp only [Bool.false_eq_true, if_false]
            simp only [hseg1, if_neg hne1]
            simp [manyLoopU, hstop2 g]
          · rw [stringCore_succ]
            simp only [many1U]
            simp only [hseg1, if_neg hne1]
            simp [manyLoopU, hstop2 g]
  exact ⟨hC, fun i rr h => hS i.length i rr le_rfl h⟩

/-- Dropping a satisfying run reaches exactly the rest when the rest is
empty or starts with a failing character. -/
theorem dropWhile_append_run (p : Char → Bool) (w r : List Char)
    (hall : w.all p = true)
    (hr : r = [] ∨ ∃ y ys, r = y :: ys ∧ p y = false) :
    List.dropWhile p (w ++ r) = r := by
  induction w with
  | nil =>
    rcases hr with rfl | ⟨y, ys, rfl, hy⟩
    · rfl
    · simp [List.dropWhile, hy]
  | cons a as ih =>
    rw [List.all_cons] at hall
    obtain ⟨ha, hall2⟩ := Bool.and_eq_true_iff.mp hall
    simp [List.dropWhile, ha, ih hall2]

/-- A nonempty plain (special-free) run followed by nothing or by a
special character is one value chunk. -/
theorem valueChunk_plain (f : Nat) (w r : List Char) (hne : w ≠ [])
    (hall : (w.all fun d => !isStrSpecial d) = true)
    (hr : r = [] ∨ ∃ y ys, r = y :: ys ∧ isStrSpecial y = true) :
    valueChunk (f + 1) (w ++ r) = some r := by
  obtain ⟨c, w2, rfl⟩ : ∃ c w2, w = c :: w2 := by
    cases w with
    | nil => exact absurd rfl hne
    | cons c w2 => exact ⟨c, w2, rfl⟩
  rw [List.all_cons] at hall
  obtain ⟨hch, hall2⟩ := Bool.and_eq_true_iff.mp hall
  have hcs : isStrSpecial c = false := by
    revert hch
    cases isStrSpecial c <;> simp
  have hcb : c ≠ '{' := by
    intro he
    rw [he] at hcs
    exact absurd hcs (by decide)
  simp only [List.cons_append]
  rw [valueChunk_ne_eq f c _ hcb, if_neg (by simp [hcs])]
  have hdrop : List.dropWhile (fun d => !isStrSpecial d) ((c :: w2) ++ r) = r := by
    apply dropWhile_append_run
    · simp [List.all_cons, hcs, hall2]
    · rcases hr with rfl | ⟨y, ys, rfl, hy⟩
      · exact Or.inl rfl
      · exact Or.inr ⟨y, ys, rfl, by simp [hy]⟩
  rw [List.cons_append] at hdrop
  rw [hdrop]

/-- Unfolding of `valueSeq` when the chunk succeeds and shrinks. -/
theorem valueSeq_eq_of_chunk (f : Nat) (i rest : List Char)
    (hch : valueChunk f i = some rest) (hlt : rest.length < i.length) :
    valueSeq f i =
      match valueSeq f rest with
      | some r2 => some r2
      | none => some rest := by
  rw [valueSeq]
  simp only [hch]
  rw [dif_pos hlt]

/-- `valueSeq` on empty input finds nothing. -/
theorem valueSeq_nil (f : Nat) : valueSeq f [] = none := by
  rw [valueSeq]
  simp only [valueChunk_nil]

/-- `valueSeq` at a special non-brace head finds nothing. -/
theorem valueSeq_none_head (f : Nat) (y : Char) (ys : List Char)
    (hy : isStrSpecial y = true) (hyb : y ≠ '{') :
    valueSeq (f + 1) (y :: ys) = none := by
  have hch : valueChunk (f + 1) (y :: ys) = none := by
    rw [valueChunk_ne_eq f y ys hyb, if_pos hy]
  rw [valueSeq]
  simp only [hch]

/-- A nonempty plain run is a complete chunk sequence. -/
theorem valueSeq_plain_end (f : Nat) (w : List Char) (hne : w ≠ [])
    (hall : (w.all fun d => !isStrSpecial d) = true) :
    valueSeq (f + 1) w = some [] := by
  have hch : valueChunk (f + 1) w = some [] := by
    have h := valueChunk_plain f w [] hne hall (Or.inl rfl)
    simpa using h
  rw [valueSeq_eq_of_chunk _ _ _ hch (by simpa using List.length_pos.mpr hne)]
  rw [valueSeq_nil]

/-- A plain run up to a closing brace is a complete chunk sequence
stopping exactly at the brace. -/
theorem valueSeq_inner (f : Nat) (b c : List Char) (hbne : b ≠ [])
    (hball : (b.all fun d => !isStrSpecial d) = true) :
    valueSeq (f + 1) (b ++ '}' :: c) = some ('}' :: c) := by
  have hch := valueChunk_plain f b ('}' :: c) hbne hball
    (Or.inr ⟨'}', c, rfl, by decide⟩)
  have hlt : ('}' :: c).length < (b ++ '}' :: c).length := by
    simp only [List.length_append, List.length_cons]
    have := List.length_pos.mpr hbne
    omega
  rw [valueSeq_eq_of_chunk _ _ _ hch hlt]
  rw [valueSeq_none_head f '}' c (by decide) (by decide)]

/-- Finishing a chunk sequence: after one chunk whose rest is a plain
(possibly empty) run, the whole input is covered. -/
theorem valueSeq_finish (f : Nat) (i c : List Char)
    (hcall : (c.all fun d => !isStrSpecial d) = true)
    (hch : valueChunk (f + 1) i = some c) (hlt : c.length < i.length) :
    valueSeq (f + 1) i = some [] := by
  rw [valueSeq_eq_of_chunk _ _ _ hch hlt]
  cases c with
  | nil => rw [valueSeq_nil]
  | cons c0 cs =>
    rw [valueSeq_plain_end f (c0 :: cs) (by simp) hcall]

/-- A value made of a plain prefix, one braced group with plain
interior, and a plain suffix is a well-formed value body. -/
theorem vOK_nested (a b c : List Char)
    (ha : (a.all fun d => !isStrSpecial d) = true)
    (hb : (b.all fun d => !isStrSpecial d) = true)
    (hc : (c.all fun d => !isStrSpecial d) = true)
    (hbne : b ≠ []) :
    vOK (a ++ '{' :: (b ++ '}' :: c)) = true := by
  have hbpos := List.length_pos.mpr hbne
  simp only [vOK, decide_eq_true_eq]
  have hbr : ∀ n, 1 ≤ n →
      valueSeq (n + 1) ('{' :: (b ++ '}' :: c)) = some [] := by
    intro n hn
    obtain ⟨g, rfl⟩ : ∃ g, n = g + 1 := ⟨n - 1, by omega⟩
    have hinner := valueSeq_inner g b c hbne hb
    have hch : valueChunk (g + 1 + 1) ('{' :: (b ++ '}' :: c)) = some c := by
      rw [valueChunk_brace_eq, hinner]
      rfl
    refine valueSeq_finish (g + 1) _ c hc hch ?_
    simp only [List.length_cons, List.length_append]
    omega
  cases a with
  | nil =>
    simp only [List.nil_append]
    exact hbr _ (by simp)
  | cons a0 as =>
    have hcha := valueChunk_plain ((a0 :: as) ++ '{' :: (b ++ '}' :: c)).length
      (a0 :: as) ('{' :: (b ++ '}' :: c)) (by simp) ha
      (Or.inr ⟨'{', b ++ '}' :: c, rfl, by decide⟩)
    have hlt : ('{' :: (b ++ '}' :: c)).length <
        ((a0 :: as) ++ '{' :: (b ++ '}' :: c)).length := by
      simp only [List.length_cons, List.length_append]
      omega
    rw [valueSeq_eq_of_chunk _ _ _ hcha hlt]
    rw [hbr (((a0 :: as) ++ '{' :: (b ++ '}' :: c)).length) (by simp)]

/-- A well-formed value body is consumed exactly by the string grammar,
stopping at any stopping tail. -/
theorem vOK_stringCore (v t : List Char) (g : Nat) (hv : vOK v = true)
    (hg : v.length ≤ g) (hstop : SegStop t) :
    stringCore (g + 1) (v ++ t) = .ok t () := by
  simp only [vOK, decide_eq_true_eq] at hv
  obtain ⟨w, hw, hwne, hmain⟩ := (value_sound (v.length + 1)).2 v [] hv
  rw [List.append_nil] at hw
  have hcore := (hmain g t (by omega) hstop).2
  rw [← hw] at hcore
  exact hcore

/-- `quoted_string` on a quote-delimited well-formed body consumes the
whole input and returns the body with only the quotes stripped. -/
theorem quoted_string_vOK (v : List Char) (hv : vOK v = true) :
    quoted_string ('"' :: (v ++ ['"'])) = .ok [] v := by
  have hstop : SegStop ['"'] :=
    ⟨⟨'"', [], rfl, by decide⟩, fun f => segStep_quoteEnd f⟩
  have hcore : stringCore (v.length + 2 + 1) (v ++ ['"']) = .ok ['"'] () :=
    vOK_stringCore v ['"'] (v.length + 2) hv (by omega) hstop
  have h1 : tagTok ['"'] ('"' :: (v ++ ['"'])) = .ok (v ++ ['"']) ['"'] := by
    simpa using tagTok_self ['"'] (v ++ ['"'])
  have h2 : stringP (('"' :: (v ++ ['"'])).length + 1) (v ++ ['"']) =
      .ok ['"'] v := by
    have hlen : ('"' :: (v ++ ['"'])).length + 1 = v.length + 2 + 1 := by
      simp [List.length_append]
    rw [hlen]
    simp only [stringP, recognizeFrom, hcore]
    have htk : (v ++ ['"']).take ((v ++ ['"']).length - ['"'].length) = v := by
      simp only [List.length_append, List.length_cons, List.length_nil]
      have : v.length + (0 + 1) - (0 + 1) = v.length := by omega
      rw [this]
      exact List.take_left v ['"']
    rw [htk]
  have h3 : tagTok ['"'] ['"'] = .ok [] ['"'] := by decide
  simp only [quoted_string, quotedOf, h1, PResult.bind_ok, h2, h3, completeP_ok]

/-- `braced_string` on a brace-delimited well-formed body consumes the
whole input and returns the body with only the braces stripped. -/
theorem braced_string_vOK (v : List Char) (hv : vOK v = true) :
    braced_string ('{' :: (v ++ ['}'])) = .ok [] v := by
  have hstop : SegStop ['}'] :=
    ⟨⟨'}', [], rfl, by decide⟩, fun f => segStep_closing f []⟩
  have hcore : stringCore (v.length + 2 + 1) (v ++ ['}']) = .ok ['}'] () :=
    vOK_stringCore v ['}'] (v.length + 2) hv (by omega) hstop
  have h1 : tagTok ['{'] ('{' :: (v ++ ['}'])) = .ok (v ++ ['}']) ['{'] := by
    simpa using tagTok_self ['{'] (v ++ ['}'])
  have h2 : stringP (('{' :: (v ++ ['}'])).length + 1) (v ++ ['}']) =
      .ok ['}'] v := by
    have hlen : ('{' :: (v ++ ['}'])).length + 1 = v.length + 2 + 1 := by
      simp [List.length_append]
    rw [hlen]
    simp only [stringP, recognizeFrom, hcore]
    have htk : (v ++ ['}']).take ((v ++ ['}']).length - ['}'].length) = v := by
      simp only [List.length_append, List.length_cons, List.length_nil]
      have : v.length + (0 + 1) - (0 + 1) = v.length := by omega
      rw [this]
      exact List.take_left v ['}']
    rw [htk]
  have h3 : tagTok ['}'] ['}'] = .ok [] ['}'] := by decide
  simp only [braced_string, bracedOf, h1, PResult.bind_ok, h2, h3, completeP_ok]

/-- **C9.** For every field value containing one level of nested braces
inside the outer delimiters — a plain prefix, one braced group with
nonempty plain interior, and a plain suffix — value parsing succeeds
for both delimiter forms, consuming the whole delimited value, and the
stored value retains the inner braces as literal content: only the
outermost delimiters are stripped. -/
theorem c9_nested_braces (a b c : List Char)
    (ha : (a.all fun d => !isStrSpecial d) = true)
    (hb : (b.all fun d => !isStrSpecial d) = true)
    (hc : (c.all fun d => !isStrSpecial d) = true)
    (hbne : b ≠ []) :
    quoted_string ('"' :: ((a ++ '{' :: (b ++ '}' :: c)) ++ ['"'])) =
      .ok [] (a ++ '{' :: (b ++ '}' :: c)) ∧
    braced_string ('{' :: ((a ++ '{' :: (b ++ '}' :: c)) ++ ['}'])) =
      .ok [] (a ++ '{' :: (b ++ '}' :: c)) := by
  have hv := vOK_nested a b c ha hb hc hbne
  exact ⟨quoted_string_vOK _ hv, braced_string_vOK _ hv⟩

/-- The value `A {Quoted} Term` of the spec's example, in both quoted
and braced delimiters, parses with the inner braces retained. -/
theorem c9_nested_braces_witness :
    quoted_string ('"' :: (("A ".data ++ '{' :: ("Quoted".data ++ '}' :: " Term".data)) ++ ['"'])) =
      .ok [] ("A ".data ++ '{' :: ("Quoted".data ++ '}' :: " Term".data)) ∧
    braced_string ('{' :: (("A ".data ++ '{' :: ("Quoted".data ++ '}' :: " Term".data)) ++ ['}'])) =
      .ok [] ("A ".data ++ '{' :: ("Quoted".data ++ '}' :: " Term".data)) :=
  c9_nested_braces "A ".data "Quoted".data " Term".data
    (by decide) (by decide) (by decide) (by decide)

/-- A failing head makes `split_at_position1` error on nonempty
input. -/
theorem takeWhile1_err_head {p : Char → Bool} (c : Char) (cs : List Char)
    (hc : p c = false) : takeWhile1 p (c :: cs) = .err := by
  have ht : (c :: cs).takeWhile p = [] := by
    simp [List.takeWhile_cons, hc]
  simp [takeWhile1, ht]

/-- Splitting an alphanumeric token at its first non-alpha character:
either it is all-alpha, or it has an alpha prefix followed by a
non-alpha alphanumeric character. -/
theorem alnum_alpha_split (l : List Char) (hall : l.all isAlphaNumNom = true) :
    l.all isAlphaNom = true ∨
    ∃ w d ds, l = w ++ d :: ds ∧ w.all isAlphaNom = true ∧
      isAlphaNom d = false ∧ isAlphaNumNom d = true := by
  induction l with
  | nil => exact Or.inl rfl
  | cons a as ih =>
    rw [List.all_cons, Bool.and_eq_true_iff] at hall
    by_cases ha : isAlphaNom a = true
    · rcases ih hall.2 with h | ⟨w, d, ds, rfl, hw, hd, hdn⟩
      · left
        rw [List.all_cons, Bool.and_eq_true_iff]
        exact ⟨ha, h⟩
      · right
        refine ⟨a :: w, d, ds, rfl, ?_, hd, hdn⟩
        rw [List.all_cons, Bool.and_eq_true_iff]
        exact ⟨ha, hw⟩
    · right
      exact ⟨[], a, as, rfl, rfl, by simpa using ha, hall.1⟩

/-- A keyword tag not matching the rendered entry type fails: the
keyword contains no brace, is not a prefix of the type, and the type is
followed by the opening brace. -/
theorem tagTok_kw_err (kw t X : List Char)
    (hnp : kw.isPrefixOf t = false) (hbr : '{' ∉ kw) :
    tagTok ('@' :: kw) ('@' :: (t ++ '{' :: X)) = .err := by
  have h1 : ¬ (('@' :: kw).isPrefixOf ('@' :: (t ++ '{' :: X)) = true) := by
    intro h
    have hp := List.isPrefixOf_iff_prefix.mp h
    rw [List.cons_prefix_cons] at hp
    have hkw : kw <+: t ++ '{' :: X := hp.2
    have htp : t <+: t ++ '{' :: X := List.prefix_append t _
    rcases List.prefix_or_prefix_of_prefix hkw htp with hc | hc
    · exact absurd (List.isPrefixOf_iff_prefix.mpr hc) (by simp [hnp])
    · obtain ⟨u, rfl⟩ := hc
      have hu : u <+: '{' :: X := (List.prefix_append_right_inj t).mp hkw
      cases u with
      | nil =>
        have hself : (t ++ []).isPrefixOf t = true :=
          List.isPrefixOf_iff_prefix.mpr (by simp)
        rw [hnp] at hself
        exact absurd hself (by simp)
      | cons u0 us =>
        have hu0 : u0 = '{' := (List.cons_prefix_cons.mp hu).1
        subst hu0
        exact hbr (List.mem_append_right t (List.mem_cons_self _ _))
  have h2 : ¬ (('@' :: (t ++ '{' :: X)).isPrefixOf ('@' :: kw) = true) := by
    intro h
    have hp := List.isPrefixOf_iff_prefix.mp h
    rw [List.cons_prefix_cons] at hp
    have hsub := hp.2.subset
    exact hbr (hsub (List.mem_append_right t (List.mem_cons_self _ _)))
  unfold tagTok
  rw [if_neg h1, if_neg h2]

/-- A rendered entry label position makes `tag_pair` fail: the label is
alphanumeric and followed by a comma, so the `=` can never be found. -/
theorem tag_pair_label_err (l X : List Char) (hl : labelOK l = true) :
    tag_pair (l ++ ',' :: X) = .err := by
  cases l with
  | nil => exact absurd hl (by decide)
  | cons c0 cs =>
    rw [labelOK, Bool.and_eq_true_iff] at hl
    have hall : ((c0 :: cs).all isAlphaNumNom) = true := hl.2
    have hc0 : isAlphaNumNom c0 = true := by
      rw [List.all_cons, Bool.and_eq_true_iff] at hall
      exact hall.1
    simp only [List.cons_append]
    have hsp : sp (c0 :: (cs ++ ',' :: X)) = .ok (c0 :: (cs ++ ',' :: X)) () :=
      sp_nonws _ (alnum_not_ws hc0)
    rcases alnum_alpha_split (c0 :: cs) hall with hA | ⟨w, d, ds, hsplit, hw, hd, hdn⟩
    · have ha : alpha ((c0 :: cs) ++ ',' :: X) = .ok (',' :: X) (c0 :: cs) :=
        takeWhile1_run (c0 :: cs) ',' X hA (by decide) (by simp)
      rw [List.cons_append] at ha
      have hsp2 : sp (',' :: X) = .ok (',' :: X) () := sp_nonws _ (by decide)
      have htg : tagTok ['='] (',' :: X) = .err := tagTok_ne [] X (by decide)
      simp only [tag_pair, hsp, PResult.bind_ok, ha, hsp2, htg, PResult.bind_err]
    · cases w with
      | nil =>
        simp only [List.nil_append] at hsplit
        have hj : c0 :: (cs ++ ',' :: X) = d :: (ds ++ ',' :: X) := by
          rw [← List.cons_append, hsplit, List.cons_append]
        rw [hj]
        have ha : alpha (d :: (ds ++ ',' :: X)) = .err :=
          takeWhile1_err_head d _ hd
        have hsp3 : sp (d :: (ds ++ ',' :: X)) = .ok (d :: (ds ++ ',' :: X)) () :=
          sp_nonws _ (alnum_not_ws hdn)
        simp only [tag_pair, hsp3, PResult.bind_ok, ha, PResult.bind_err]
      | cons w0 ws =>
        have hj : c0 :: (cs ++ ',' :: X) =
            (w0 :: ws) ++ d :: (ds ++ ',' :: X) := by
          rw [← List.cons_append, hsplit]
          simp [List.append_assoc]
        rw [hj]
        have ha : alpha ((w0 :: ws) ++ d :: (ds ++ ',' :: X)) =
            .ok (d :: (ds ++ ',' :: X)) (w0 :: ws) :=
          takeWhile1_run (w0 :: ws) d _ hw hd (by simp)
        have hw0 : isAlphaNom w0 = true := by
          rw [List.all_cons, Bool.and_eq_true_iff] at hw
          exact hw.1
        have hsp4 : sp ((w0 :: ws) ++ d :: (ds ++ ',' :: X)) =
            .ok ((w0 :: ws) ++ d :: (ds ++ ',' :: X)) () := by
          rw [List.cons_append]
          exact sp_nonws _ (alnum_not_ws (alpha_isAlnum hw0))
        have hsp5 : sp (d :: (ds ++ ',' :: X)) = .ok (d :: (ds ++ ',' :: X)) () :=
          sp_nonws _ (alnum_not_ws hdn)
        have htg : tagTok ['='] (d :: (ds ++ ',' :: X)) = .err :=
          tagTok_ne [] _ (Ne.symm (alnum_ne_of_ranges hdn (by decide)))
        simp only [tag_pair, hsp4, PResult.bind_ok, ha, hsp5, htg, PResult.bind_err]

/-- The value alternative on a rendered braced value: the bare
alphanumeric literal fails at the brace and the delimited form consumes
the group exactly. -/
theorem tagPairValue_braced (v R : List Char) (hv : vOK v = true) :
    tagPairValue ('{' :: (v ++ '}' :: R)) = .ok R v := by
  have h1 : alphanumeric ('{' :: (v ++ '}' :: R)) = .err :=
    takeWhile1_err_head '{' _ (by decide)
  have hstop : SegStop ('}' :: R) :=
    ⟨⟨'}', R, rfl, by decide⟩, fun f => segStep_closing f R⟩
  have hcore : stringCore ((v.length + R.length + 2) + 1) (v ++ '}' :: R) =
      .ok ('}' :: R) () :=
    vOK_stringCore v ('}' :: R) _ hv (by omega) hstop
  have hlen : ('{' :: (v ++ '}' :: R)).length + 1 = (v.length + R.length + 2) + 1 := by
    simp only [List.length_cons, List.length_append]
    omega
  have h2 : stringP (('{' :: (v ++ '}' :: R)).length + 1) (v ++ '}' :: R) =
      .ok ('}' :: R) v := by
    rw [hlen]
    simp only [stringP, recognizeFrom, hcore]
    have htk : (v ++ '}' :: R).take ((v ++ '}' :: R).length - ('}' :: R).length) = v := by
      simp only [List.length_append, List.length_cons]
      have he : v.length + (R.length + 1) - (R.length + 1) = v.length := by omega
      rw [he]
      exact List.take_left v _
    rw [htk]
  have h3 : tagTok ['{'] ('{' :: (v ++ '}' :: R)) = .ok (v ++ '}' :: R) ['{'] := by
    simpa using tagTok_self ['{'] (v ++ '}' :: R)
  have h4 : tagTok ['}'] ('}' :: R) = .ok R ['}'] := by
    simpa using tagTok_self ['}'] R
  simp only [tagPairValue, h1, PResult.orElse_err, delimOf, bracedOf, h3,
    PResult.bind_ok, h2, h4, completeP_ok, PResult.orElse_ok]

/-- A rendered `key = {value}` pair, preceded by any whitespace run,
parses to the pair with the rest positioned at the following comma. -/
theorem tag_pair_rendered (w k v R : List Char)
    (hw : w.all isWsNom = true) (hk : keyOK k = true) (hv : vOK v = true) :
    tag_pair (w ++ (k ++ ' ' :: '=' :: ' ' :: '{' :: (v ++ '}' :: ',' :: R))) =
      .ok (',' :: R) (k, v) := by
  obtain ⟨k0, ks, rfl⟩ : ∃ k0 ks, k = k0 :: ks := by
    cases k with
    | nil => exact absurd hk (by decide)
    | cons k0 ks => exact ⟨k0, ks, rfl⟩
  rw [keyOK, Bool.and_eq_true_iff] at hk
  have hallA : ((k0 :: ks).all isAlphaNom) = true := by
    refine List.all_eq_true.mpr ?_
    intro c hc
    exact lower_isAlpha (List.all_eq_true.mp hk.2 c hc)
  have hk0 : isAlphaNom k0 = true := by
    rw [List.all_cons, Bool.and_eq_true_iff] at hallA
    exact hallA.1
  simp only [List.cons_append]
  have hsp1 : sp (w ++ k0 :: (ks ++ ' ' :: '=' :: ' ' :: '{' ::
      (v ++ '}' :: ',' :: R))) = .ok (k0 :: (ks ++ ' ' :: '=' :: ' ' :: '{' ::
      (v ++ '}' :: ',' :: R))) () :=
    sp_run w k0 _ hw (alnum_not_ws (alpha_isAlnum hk0))
  have ha : alpha (k0 :: (ks ++ ' ' :: '=' :: ' ' :: '{' ::
      (v ++ '}' :: ',' :: R))) = .ok (' ' :: '=' :: ' ' :: '{' ::
      (v ++ '}' :: ',' :: R)) (k0 :: ks) := by
    have h := takeWhile1_run (p := isAlphaNom) (k0 :: ks) ' '
      ('=' :: ' ' :: '{' :: (v ++ '}' :: ',' :: R)) hallA (by decide) (by simp)
    simpa only [List.cons_append] using h
  have hsp2 : sp (' ' :: '=' :: ' ' :: '{' :: (v ++ '}' :: ',' :: R)) =
      .ok ('=' :: ' ' :: '{' :: (v ++ '}' :: ',' :: R)) () := by
    have h := sp_run [' '] '=' (' ' :: '{' :: (v ++ '}' :: ',' :: R))
      (by decide) (by decide)
    simpa only [List.cons_append, List.nil_append] using h
  have htg : tagTok ['='] ('=' :: ' ' :: '{' :: (v ++ '}' :: ',' :: R)) =
      .ok (' ' :: '{' :: (v ++ '}' :: ',' :: R)) ['='] := by
    simpa using tagTok_self ['='] (' ' :: '{' :: (v ++ '}' :: ',' :: R))
  have hsp3 : sp (' ' :: '{' :: (v ++ '}' :: ',' :: R)) =
      .ok ('{' :: (v ++ '}' :: ',' :: R)) () := by
    have h := sp_run [' '] '{' (v ++ '}' :: ',' :: R) (by decide) (by decide)
    simpa only [List.cons_append, List.nil_append] using h
  have hval : tagPairValue ('{' :: (v ++ '}' :: ',' :: R)) = .ok (',' :: R) v :=
    tagPairValue_braced v (',' :: R) hv
  have hsp4 : sp (',' :: R) = .ok (',' :: R) () := sp_nonws _ (by decide)
  simp only [tag_pair, hsp1, PResult.bind_ok, ha, hsp2, htg, hsp3, hval, hsp4]

/-- The rendering of one tag in `fmt::Display` for `BibItem::Entry`. -/
def pairRender (kv : List Char × List Char) : List Char :=
  ' ' :: ' ' :: ' ' :: ' ' :: kv.1 ++ ' ' :: '=' :: ' ' :: '{' :: kv.2 ++
    ['}', ',', '\n']

/-- The rendered tag block of an entry. -/
def tagsBody (m : List (List Char × List Char)) : List Char :=
  m.flatMap pairRender

/-- The tag block renders at least one character per tag. -/
theorem tagsBody_len : ∀ ms : List (List Char × List Char),
    ms.length ≤ (tagsBody ms).length := by
  intro ms
  induction ms with
  | nil => simp [tagsBody]
  | cons kv tl ih =>
    have h1 : 1 ≤ (pairRender kv).length := by
      obtain ⟨a, b⟩ := kv
      simp [pairRender]
    simp only [tagsBody, List.flatMap_cons, List.length_append,
      List.length_cons] at *
    omega

/-- The rendering of an entry followed by arbitrary text, reassociated
into parsing order. -/
theorem renderEntry_shape (t l : List Char)
    (m : List (List Char × List Char)) (ext : List Char) :
    renderEntry t l m ++ ext =
      '@' :: (t ++ '{' :: (l ++ ',' :: '\n' ::
        (tagsBody m ++ '}' :: '\n' :: '\n' :: ext))) := by
  have hfun : ∀ kv : List Char × List Char, pairRender kv =
      ' ' :: ' ' :: ' ' :: ' ' ::
        (kv.1 ++ ' ' :: '=' :: ' ' :: '{' :: (kv.2 ++ ['}', ',', '\n'])) := by
    intro kv
    simp [pairRender, List.append_assoc]
  simp [renderEntry, tagsBody, hfun, List.append_assoc]
  congr 1
  funext kv
  rw [hfun]

/-- `tag_pair` fails at the rendered closing of the tag block. -/
theorem tag_pair_stop (Y : List Char) : tag_pair ('\n' :: '}' :: Y) = .err := by
  have hsp : sp ('\n' :: '}' :: Y) = .ok ('}' :: Y) () := by
    have h := sp_run ['\n'] '}' Y (by decide) (by decide)
    simpa only [List.cons_append, List.nil_append] using h
  have ha : alpha ('}' :: Y) = .err := takeWhile1_err_head '}' Y (by decide)
  simp only [tag_pair, hsp, PResult.bind_ok, ha, PResult.bind_err]

/-- `tag_list` at a closing brace yields the empty mapping without
consuming input. -/
theorem tag_list_rbrace (Y : List Char) :
    tag_list ('}' :: Y) = .ok ('}' :: Y) [] := by
  have hp : tag_pair ('}' :: Y) = .err := by
    have hsp : sp ('}' :: Y) = .ok ('}' :: Y) () := sp_nonws _ (by decide)
    have ha : alpha ('}' :: Y) = .err := takeWhile1_err_head '}' Y (by decide)
    simp only [tag_pair, hsp, PResult.bind_ok, ha, PResult.bind_err]
  simp only [tag_list, separatedList, hp, completeP_err]
  rfl

/-- The `separated_list!` loop over the rendered tag block: positioned
at the comma after a parsed pair, it consumes every remaining rendered
pair and stops before the final comma. -/
theorem sepLoop_rendered (ext : List Char) :
    ∀ (ms : List (List Char × List Char)) (fuel : Nat)
      (acc : List (List Char × List Char)), ms.length < fuel →
      (∀ kv ∈ ms, keyOK kv.1 = true ∧ vOK kv.2 = true) →
      sepListLoop (tagTok [',']) (fun j => completeP (tag_pair j)) fuel
        (',' :: '\n' :: (tagsBody ms ++ '}' :: '\n' :: '\n' :: ext)) acc =
      .ok (',' :: '\n' :: '}' :: '\n' :: '\n' :: ext) (acc ++ ms) := by
  intro ms
  induction ms with
  | nil =>
    intro fuel acc hf hgood
    obtain ⟨f, rfl⟩ : ∃ f, fuel = f + 1 := ⟨fuel - 1, by omega⟩
    simp only [tagsBody, List.flatMap_nil, List.nil_append]
    have hsep : tagTok [','] (',' :: '\n' :: '}' :: '\n' :: '\n' :: ext) =
        .ok ('\n' :: '}' :: '\n' :: '\n' :: ext) [','] := by
      simpa using tagTok_self [','] ('\n' :: '}' :: '\n' :: '\n' :: ext)
    have helem : tag_pair ('\n' :: '}' :: '\n' :: '\n' :: ext) = .err :=
      tag_pair_stop _
    simp only [sepListLoop, hsep]
    rw [if_neg (by intro h; injection h with h1 h2; exact absurd h1 (by decide))]
    simp only [helem, completeP_err, List.append_nil]
  | cons kv ms ih =>
    intro fuel acc hf hgood
    obtain ⟨f, rfl⟩ : ∃ f, fuel = f + 1 := ⟨fuel - 1, by omega⟩
    obtain ⟨k, v⟩ := kv
    have hshape : tagsBody ((k, v) :: ms) ++ '}' :: '\n' :: '\n' :: ext =
        ' ' :: ' ' :: ' ' :: ' ' :: (k ++ ' ' :: '=' :: ' ' :: '{' ::
          (v ++ '}' :: ',' :: '\n' ::
            (tagsBody ms ++ '}' :: '\n' :: '\n' :: ext))) := by
      simp [tagsBody, pairRender, List.append_assoc]
    rw [hshape]
    have hsep : tagTok [','] (',' :: '\n' :: ' ' :: ' ' :: ' ' :: ' ' ::
        (k ++ ' ' :: '=' :: ' ' :: '{' :: (v ++ '}' :: ',' :: '\n' ::
          (tagsBody ms ++ '}' :: '\n' :: '\n' :: ext)))) =
        .ok ('\n' :: ' ' :: ' ' :: ' ' :: ' ' ::
        (k ++ ' ' :: '=' :: ' ' :: '{' :: (v ++ '}' :: ',' :: '\n' ::
          (tagsBody ms ++ '}' :: '\n' :: '\n' :: ext)))) [','] := by
      simpa using tagTok_self [','] _
    have helem : tag_pair ('\n' :: ' ' :: ' ' :: ' ' :: ' ' ::
        (k ++ ' ' :: '=' :: ' ' :: '{' :: (v ++ '}' :: ',' :: '\n' ::
          (tagsBody ms ++ '}' :: '\n' :: '\n' :: ext)))) =
        .ok (',' :: '\n' :: (tagsBody ms ++ '}' :: '\n' :: '\n' :: ext))
          (k, v) := by
      have h := tag_pair_rendered ['\n', ' ', ' ', ' ', ' '] k v
        ('\n' :: (tagsBody ms ++ '}' :: '\n' :: '\n' :: ext)) (by decide)
        (hgood (k, v) (by simp)).1 (hgood (k, v) (by simp)).2
      simpa only [List.cons_append, List.nil_append] using h
    simp only [sepListLoop, hsep]
    rw [if_neg (by intro h; injection h with h1 h2; exact absurd h1 (by decide))]
    simp only [helem, completeP_ok]
    rw [if_neg (by intro h; injection h with h1 h2; exact absurd h1 (by decide))]
    have hrec := ih f (acc ++ [(k, v)]) (by simpa using hf)
      (fun x hx => hgood x (by simp [hx]))
    rw [hrec]
    simp

/-- `tag_list` on the rendered tag block of a nonempty mapping. -/
theorem tag_list_rendered (ext k v : List Char)
    (ms : List (List Char × List Char))
    (hk : keyOK k = true) (hv : vOK v = true)
    (hms : ∀ kv ∈ ms, keyOK kv.1 = true ∧ vOK kv.2 = true) :
    tag_list (k ++ ' ' :: '=' :: ' ' :: '{' ::
        (v ++ '}' :: ',' :: '\n' :: (tagsBody ms ++ '}' :: '\n' :: '\n' :: ext))) =
      .ok (',' :: '\n' :: '}' :: '\n' :: '\n' :: ext)
        (buildMap ((k, v) :: ms)) := by
  obtain ⟨k0, ks, rfl⟩ : ∃ k0 ks, k = k0 :: ks := by
    cases k with
    | nil => exact absurd hk (by decide)
    | cons k0 ks => exact ⟨k0, ks, rfl⟩
  have hk0 : ('a' ≤ k0 && k0 ≤ 'z') = true := by
    rw [keyOK, Bool.and_eq_true_iff] at hk
    have h2 := hk.2
    rw [List.all_cons, Bool.and_eq_true_iff] at h2
    exact h2.1
  have helem : tag_pair ((k0 :: ks) ++ ' ' :: '=' :: ' ' :: '{' ::
      (v ++ '}' :: ',' :: '\n' :: (tagsBody ms ++ '}' :: '\n' :: '\n' :: ext))) =
      .ok (',' :: '\n' :: (tagsBody ms ++ '}' :: '\n' :: '\n' :: ext))
        (k0 :: ks, v) := by
    have h := tag_pair_rendered [] (k0 :: ks) v
      ('\n' :: (tagsBody ms ++ '}' :: '\n' :: '\n' :: ext)) rfl hk hv
    simpa only [List.nil_append] using h
  simp only [List.cons_append] at helem
  simp only [tag_list, separatedList, List.cons_append, helem, completeP_ok]
  have hne : (',' :: '\n' :: (tagsBody ms ++ '}' :: '\n' :: '\n' :: ext)) ≠
      (k0 :: (ks ++ ' ' :: '=' :: ' ' :: '{' ::
        (v ++ '}' :: ',' :: '\n' :: (tagsBody ms ++ '}' :: '\n' :: '\n' :: ext)))) := by
    intro h
    injection h with h1 h2
    exact absurd h1
      (Ne.symm (alnum_ne_of_ranges (alpha_isAlnum (lower_isAlpha hk0)) (by decide)))
  rw [if_neg hne]
  have hfl : ms.length < (k0 :: (ks ++ ' ' :: '=' :: ' ' :: '{' ::
      (v ++ '}' :: ',' :: '\n' :: (tagsBody ms ++ '}' :: '\n' :: '\n' :: ext)))).length + 1 := by
    have hbl := tagsBody_len ms
    simp only [List.length_cons, List.length_append]
    omega
  have hloop := sepLoop_rendered ext ms
    ((k0 :: (ks ++ ' ' :: '=' :: ' ' :: '{' ::
      (v ++ '}' :: ',' :: '\n' :: (tagsBody ms ++ '}' :: '\n' :: '\n' :: ext)))).length + 1)
    [(k0 :: ks, v)] hfl hms
  rw [hloop]
  rfl

/-- Inserting a fresh key appends it. -/
theorem hmInsert_fresh (m : List (List Char × List Char)) (k v : List Char)
    (hk : k ∉ m.map Prod.fst) : hmInsert m k v = m ++ [(k, v)] := by
  induction m with
  | nil => rfl
  | cons kv tl ih =>
    obtain ⟨k1, v1⟩ := kv
    simp only [List.map_cons, List.mem_cons, not_or] at hk
    rw [hmInsert, if_neg (fun he => hk.1 he.symm), ih hk.2]
    rfl

/-- The lower-casing insertion fold leaves a mapping with distinct,
already lower-cased keys unchanged. -/
theorem buildMap_fold_id :
    ∀ (l acc : List (List Char × List Char)),
      ((acc ++ l).map Prod.fst).Nodup →
      (∀ kv ∈ l, kv.1.map Char.toLower = kv.1) →
      List.foldl (fun m kv => hmInsert m (kv.1.map Char.toLower) kv.2) acc l =
        acc ++ l := by
  intro l
  induction l with
  | nil =>
    intro acc _ _
    simp
  | cons kv tl ih =>
    intro acc hnd hlow
    rw [List.foldl_cons, hlow kv (by simp)]
    have hfresh : kv.1 ∉ acc.map Prod.fst := by
      intro hmem
      rw [List.map_append, List.nodup_append] at hnd
      exact hnd.2.2 hmem (by simp)
    rw [hmInsert_fresh acc kv.1 kv.2 hfresh]
    have h2 := ih (acc ++ [kv]) (by simpa [List.append_assoc] using hnd)
      (fun x hx => hlow x (by simp [hx]))
    simpa [List.append_assoc] using h2

/-- Lower-casing an all-lower-case key is the identity. -/
theorem keyOK_toLower_id (k : List Char) (hk : keyOK k = true) :
    k.map Char.toLower = k := by
  rw [keyOK, Bool.and_eq_true_iff] at hk
  have hall := hk.2
  rw [List.all_eq_true] at hall
  have hmap : k.map Char.toLower = k.map id :=
    List.map_congr_left (fun x hx => toLower_id_lower (hall x hx))
  rw [hmap, List.map_id]

/-- Upper-casing an all-upper-case entry type is the identity. -/
theorem entryTypeOK_toUpper_id (t : List Char) (ht : entryTypeOK t = true) :
    t.map Char.toUpper = t := by
  rw [entryTypeOK, Bool.and_eq_true_iff] at ht
  have hall := ht.2
  rw [List.all_eq_true] at hall
  have hmap : t.map Char.toUpper = t.map id :=
    List.map_congr_left (fun x hx => toUpper_id_upper (hall x hx))
  rw [hmap, List.map_id]

/-- The insertion fold is the identity on a mapping with distinct,
lower-cased keys. -/
theorem buildMap_id (m : List (List Char × List Char))
    (hnd : (m.map Prod.fst).Nodup)
    (hm : ∀ kv ∈ m, keyOK kv.1 = true) : buildMap m = m := by
  have h := buildMap_fold_id m [] (by simpa using hnd)
    (fun kv hkv => keyOK_toLower_id kv.1 (hm kv hkv))
  simpa [buildMap] using h

/-- A nonempty special-free run is a well-formed value body. -/
theorem vOK_plain (w : List Char) (hne : w ≠ [])
    (hall : (w.all fun d => !isStrSpecial d) = true) : vOK w = true := by
  simp only [vOK, decide_eq_true_eq]
  exact valueSeq_plain_end w.length w hne hall

/-- The tag block of a nonempty mapping, reassociated into parsing
order. -/
theorem tagsBody_cons (k v : List Char) (ms : List (List Char × List Char))
    (Z : List Char) :
    tagsBody ((k, v) :: ms) ++ Z =
      ' ' :: ' ' :: ' ' :: ' ' :: (k ++ ' ' :: '=' :: ' ' :: '{' ::
        (v ++ '}' :: ',' :: '\n' :: (tagsBody ms ++ Z))) := by
  simp [tagsBody, pairRender, List.append_assoc]

/-- The generic entry alternative consumes a rendered entry up to and
including the closing brace, leaving the rendered trailing blank line,
and rebuilds the entry through the upper-casing of the type and the
insertion fold over the tag pairs. -/
theorem bibEntryEntry_rendered (t l : List Char)
    (m : List (List Char × List Char)) (ext : List Char)
    (ht : entryTypeOK t = true) (hl : labelOK l = true)
    (hm : ∀ kv ∈ m, keyOK kv.1 = true ∧ vOK kv.2 = true) :
    bibEntryEntry ('@' :: (t ++ '{' :: (l ++ ',' :: '\n' ::
        (tagsBody m ++ '}' :: '\n' :: '\n' :: ext)))) =
      .ok ('\n' :: '\n' :: ext)
        (.entry (t.map Char.toUpper) l (buildMap m)) := by
  obtain ⟨t0, ts, rfl⟩ : ∃ t0 ts, t = t0 :: ts := by
    cases t with
    | nil => exact absurd ht (by decide)
    | cons t0 ts => exact ⟨t0, ts, rfl⟩
  obtain ⟨l0, ls, rfl⟩ : ∃ l0 ls, l = l0 :: ls := by
    cases l with
    | nil => exact absurd hl (by decide)
    | cons l0 ls => exact ⟨l0, ls, rfl⟩
  have hallU : ((t0 :: ts).all fun c => 'A' ≤ c && c ≤ 'Z') = true := by
    rw [entryTypeOK, Bool.and_eq_true_iff] at ht
    exact ht.2
  have hallA : ((t0 :: ts).all isAlphaNom) = true := by
    refine List.all_eq_true.mpr ?_
    intro c hc
    exact upper_isAlpha (List.all_eq_true.mp hallU c hc)
  have ht0 : isAlphaNom t0 = true := by
    rw [List.all_cons, Bool.and_eq_true_iff] at hallA
    exact hallA.1
  have hallN : ((l0 :: ls).all isAlphaNumNom) = true := by
    rw [labelOK, Bool.and_eq_true_iff] at hl
    exact hl.2
  have hl0 : isAlphaNumNom l0 = true := by
    rw [List.all_cons, Bool.and_eq_true_iff] at hallN
    exact hallN.1
  simp only [List.cons_append]
  have hsp0 : sp ('@' :: t0 :: (ts ++ '{' :: l0 :: (ls ++ ',' :: '\n' ::
      (tagsBody m ++ '}' :: '\n' :: '\n' :: ext)))) =
      .ok ('@' :: t0 :: (ts ++ '{' :: l0 :: (ls ++ ',' :: '\n' ::
        (tagsBody m ++ '}' :: '\n' :: '\n' :: ext)))) () :=
    sp_nonws _ (by decide)
  have htag0 : tagTok ['@'] ('@' :: t0 :: (ts ++ '{' :: l0 :: (ls ++ ',' :: '\n' ::
      (tagsBody m ++ '}' :: '\n' :: '\n' :: ext)))) =
      .ok (t0 :: (ts ++ '{' :: l0 :: (ls ++ ',' :: '\n' ::
        (tagsBody m ++ '}' :: '\n' :: '\n' :: ext)))) ['@'] := by
    simpa using tagTok_self ['@'] _
  have hsp1 : sp (t0 :: (ts ++ '{' :: l0 :: (ls ++ ',' :: '\n' ::
      (tagsBody m ++ '}' :: '\n' :: '\n' :: ext)))) =
      .ok (t0 :: (ts ++ '{' :: l0 :: (ls ++ ',' :: '\n' ::
        (tagsBody m ++ '}' :: '\n' :: '\n' :: ext)))) () :=
    sp_nonws _ (alnum_not_ws (alpha_isAlnum ht0))
  have halpha : alpha (t0 :: (ts ++ '{' :: l0 :: (ls ++ ',' :: '\n' ::
      (tagsBody m ++ '}' :: '\n' :: '\n' :: ext)))) =
      .ok ('{' :: l0 :: (ls ++ ',' :: '\n' ::
        (tagsBody m ++ '}' :: '\n' :: '\n' :: ext))) (t0 :: ts) := by
    have h := takeWhile1_run (p := isAlphaNom) (t0 :: ts) '{'
      (l0 :: (ls ++ ',' :: '\n' :: (tagsBody m ++ '}' :: '\n' :: '\n' :: ext)))
      hallA (by decide) (by simp)
    simpa only [List.cons_append] using h
  have hsp2 : sp ('{' :: l0 :: (ls ++ ',' :: '\n' ::
      (tagsBody m ++ '}' :: '\n' :: '\n' :: ext))) =
      .ok ('{' :: l0 :: (ls ++ ',' :: '\n' ::
        (tagsBody m ++ '}' :: '\n' :: '\n' :: ext))) () :=
    sp_nonws _ (by decide)
  have htag1 : tagTok ['{'] ('{' :: l0 :: (ls ++ ',' :: '\n' ::
      (tagsBody m ++ '}' :: '\n' :: '\n' :: ext))) =
      .ok (l0 :: (ls ++ ',' :: '\n' ::
        (tagsBody m ++ '}' :: '\n' :: '\n' :: ext))) ['{'] := by
    simpa using tagTok_self ['{'] _
  have hsp3 : sp (l0 :: (ls ++ ',' :: '\n' ::
      (tagsBody m ++ '}' :: '\n' :: '\n' :: ext))) =
      .ok (l0 :: (ls ++ ',' :: '\n' ::
        (tagsBody m ++ '}' :: '\n' :: '\n' :: ext))) () :=
    sp_nonws _ (alnum_not_ws hl0)
  have halnum : alphanumeric (l0 :: (ls ++ ',' :: '\n' ::
      (tagsBody m ++ '}' :: '\n' :: '\n' :: ext))) =
      .ok (',' :: '\n' :: (tagsBody m ++ '}' :: '\n' :: '\n' :: ext))
        (l0 :: ls) := by
    have h := takeWhile1_run (p := isAlphaNumNom) (l0 :: ls) ','
      ('\n' :: (tagsBody m ++ '}' :: '\n' :: '\n' :: ext))
      hallN (by decide) (by simp)
    simpa only [List.cons_append] using h
  have hsp4 : sp (',' :: '\n' :: (tagsBody m ++ '}' :: '\n' :: '\n' :: ext)) =
      .ok (',' :: '\n' :: (tagsBody m ++ '}' :: '\n' :: '\n' :: ext)) () :=
    sp_nonws _ (by decide)
  have htag2 : tagTok [','] (',' :: '\n' ::
      (tagsBody m ++ '}' :: '\n' :: '\n' :: ext)) =
      .ok ('\n' :: (tagsBody m ++ '}' :: '\n' :: '\n' :: ext)) [','] := by
    simpa using tagTok_self [','] _
  cases m with
  | nil =>
    simp only [tagsBody, List.flatMap_nil, List.nil_append]
    simp only [tagsBody, List.flatMap_nil, List.nil_append] at hsp0 htag0 hsp1 halpha hsp2
    simp only [tagsBody, List.flatMap_nil, List.nil_append] at htag1 hsp3 halnum hsp4 htag2
    have hsp5 : sp ('\n' :: '}' :: '\n' :: '\n' :: ext) =
        .ok ('}' :: '\n' :: '\n' :: ext) () := by
      have h := sp_run ['\n'] '}' ('\n' :: '\n' :: ext) (by decide) (by decide)
      simpa only [List.cons_append, List.nil_append] using h
    have htl : tag_list ('}' :: '\n' :: '\n' :: ext) =
        .ok ('}' :: '\n' :: '\n' :: ext) [] := tag_list_rbrace _
    have hsp6 : sp ('}' :: '\n' :: '\n' :: ext) =
        .ok ('}' :: '\n' :: '\n' :: ext) () := sp_nonws _ (by decide)
    have htge : tagTok [','] ('}' :: '\n' :: '\n' :: ext) = .err :=
      tagTok_ne [] _ (by decide)
    have hopt : optP (fun j => (sp j).bind fun j1 _ => tagTok [','] j1)
        ('}' :: '\n' :: '\n' :: ext) = .ok ('}' :: '\n' :: '\n' :: ext) none := by
      simp only [optP, hsp6, PResult.bind_ok, htge]
    have htag3 : tagTok ['}'] ('}' :: '\n' :: '\n' :: ext) =
        .ok ('\n' :: '\n' :: ext) ['}'] := by
      simpa using tagTok_self ['}'] _
    simp only [bibEntryEntry, hsp0, PResult.bind_ok, htag0, hsp1, halpha,
      hsp2, htag1, hsp3, halnum, hsp4, htag2, hsp5, htl, hopt, hsp6, htag3]
    rfl
  | cons kv ms =>
    obtain ⟨k, v⟩ := kv
    obtain ⟨k0, ks, rfl⟩ : ∃ k0 ks, k = k0 :: ks := by
      have hk := (hm (k, v) (by simp)).1
      cases k with
      | nil => simp [keyOK] at hk
      | cons k0 ks => exact ⟨k0, ks, rfl⟩
    have hk := (hm (k0 :: ks, v) (by simp)).1
    have hv := (hm (k0 :: ks, v) (by simp)).2
    have hk0 : ('a' ≤ k0 && k0 ≤ 'z') = true := by
      rw [keyOK, Bool.and_eq_true_iff] at hk
      have h2 := hk.2
      rw [List.all_cons, Bool.and_eq_true_iff] at h2
      exact h2.1
    rw [tagsBody_cons] at hsp0 htag0 hsp1 halpha hsp2
    rw [tagsBody_cons] at htag1 hsp3 halnum hsp4 htag2
    simp only [List.cons_append] at hsp0 htag0 hsp1 halpha hsp2
    simp only [List.cons_append] at htag1 hsp3 halnum hsp4 htag2
    rw [tagsBody_cons]
    simp only [List.cons_append]
    have hsp5 : sp ('\n' :: ' ' :: ' ' :: ' ' :: ' ' ::
        ((k0 :: ks) ++ ' ' :: '=' :: ' ' :: '{' :: (v ++ '}' :: ',' :: '\n' ::
          (tagsBody ms ++ '}' :: '\n' :: '\n' :: ext)))) =
        .ok ((k0 :: ks) ++ ' ' :: '=' :: ' ' :: '{' :: (v ++ '}' :: ',' :: '\n' ::
          (tagsBody ms ++ '}' :: '\n' :: '\n' :: ext))) () := by
      have h := sp_run ['\n', ' ', ' ', ' ', ' '] k0
        (ks ++ ' ' :: '=' :: ' ' :: '{' :: (v ++ '}' :: ',' :: '\n' ::
          (tagsBody ms ++ '}' :: '\n' :: '\n' :: ext)))
        (by decide) (alnum_not_ws (alpha_isAlnum (lower_isAlpha hk0)))
      simpa only [List.cons_append, List.nil_append] using h
    have htl := tag_list_rendered ext (k0 :: ks) v ms hk hv
      (fun x hx => hm x (by simp [hx]))
    have hsp6 : sp (',' :: '\n' :: '}' :: '\n' :: '\n' :: ext) =
        .ok (',' :: '\n' :: '}' :: '\n' :: '\n' :: ext) () :=
      sp_nonws _ (by decide)
    have htgc : tagTok [','] (',' :: '\n' :: '}' :: '\n' :: '\n' :: ext) =
        .ok ('\n' :: '}' :: '\n' :: '\n' :: ext) [','] := by
      simpa using tagTok_self [','] _
    have hopt : optP (fun j => (sp j).bind fun j1 _ => tagTok [','] j1)
        (',' :: '\n' :: '}' :: '\n' :: '\n' :: ext) =
        .ok ('\n' :: '}' :: '\n' :: '\n' :: ext) (some [',']) := by
      simp only [optP, hsp6, PResult.bind_ok, htgc]
    have hsp7 : sp ('\n' :: '}' :: '\n' :: '\n' :: ext) =
        .ok ('}' :: '\n' :: '\n' :: ext) () := by
      have h := sp_run ['\n'] '}' ('\n' :: '\n' :: ext) (by decide) (by decide)
      simpa only [List.cons_append, List.nil_append] using h
    have htag3 : tagTok ['}'] ('}' :: '\n' :: '\n' :: ext) =
        .ok ('\n' :: '\n' :: ext) ['}'] := by
      simpa using tagTok_self ['}'] _
    simp only [List.cons_append] at hsp5 htl
    simp only [bibEntryEntry, hsp0, PResult.bind_ok, htag0, hsp1, halpha,
      hsp2, htag1, hsp3, halnum, hsp4, htag2, hsp5, htl, hopt, hsp7, htag3]

/-- The `@PREAMBLE` alternative fails on a rendered entry whose type
does not start with `PREAMBLE`. -/
theorem bibEntryPreamble_render_err (t X : List Char)
    (hnp : "PREAMBLE".data.isPrefixOf t = false) :
    bibEntryPreamble ('@' :: (t ++ '{' :: X)) = .err := by
  have hsp : sp ('@' :: (t ++ '{' :: X)) = .ok ('@' :: (t ++ '{' :: X)) () :=
    sp_nonws _ (by decide)
  have htg : tagTok "@PREAMBLE".data ('@' :: (t ++ '{' :: X)) = .err :=
    tagTok_kw_err "PREAMBLE".data t X hnp (by decide)
  simp only [bibEntryPreamble, hsp, PResult.bind_ok, htg, PResult.bind_err]

/-- The `@COMMENT` alternative fails on a rendered entry whose type
does not start with `COMMENT`. -/
theorem bibEntryComment_render_err (t X : List Char)
    (hnc : "COMMENT".data.isPrefixOf t = false) :
    bibEntryComment ('@' :: (t ++ '{' :: X)) = .err := by
  have hsp : sp ('@' :: (t ++ '{' :: X)) = .ok ('@' :: (t ++ '{' :: X)) () :=
    sp_nonws _ (by decide)
  have htg : tagTok "@COMMENT".data ('@' :: (t ++ '{' :: X)) = .err :=
    tagTok_kw_err "COMMENT".data t X hnc (by decide)
  simp only [bibEntryComment, hsp, PResult.bind_ok, htg, PResult.bind_err]

/-- The `@STRING` alternative fails on every rendered entry: either the
keyword does not match the type, or the type continues past it, or the
body is label-shaped rather than a tag list. -/
theorem bibEntryString_render_err (t l X : List Char)
    (ht : entryTypeOK t = true) (hl : labelOK l = true) :
    bibEntryString ('@' :: (t ++ '{' :: (l ++ ',' :: X))) = .err := by
  have hsp : sp ('@' :: (t ++ '{' :: (l ++ ',' :: X))) =
      .ok ('@' :: (t ++ '{' :: (l ++ ',' :: X))) () := sp_nonws _ (by decide)
  obtain ⟨l0, ls, rfl⟩ : ∃ l0 ls, l = l0 :: ls := by
    cases l with
    | nil => exact absurd hl (by decide)
    | cons l0 ls => exact ⟨l0, ls, rfl⟩
  have hl0 : isAlphaNumNom l0 = true := by
    rw [labelOK, Bool.and_eq_true_iff] at hl
    have h2 := hl.2
    rw [List.all_cons, Bool.and_eq_true_iff] at h2
    exact h2.1
  cases hstr : "STRING".data.isPrefixOf t with
  | false =>
    have htg : tagTok "@STRING".data
        ('@' :: (t ++ '{' :: (l0 :: ls ++ ',' :: X))) = .err :=
      tagTok_kw_err "STRING".data t _ hstr (by decide)
    simp only [bibEntryString, hsp, PResult.bind_ok, htg, PResult.bind_err]
  | true =>
    obtain ⟨u, rfl⟩ : ∃ u, t = "STRING".data ++ u := by
      obtain ⟨u, hu⟩ := List.isPrefixOf_iff_prefix.mp hstr
      exact ⟨u, hu.symm⟩
    cases u with
    | nil =>
      simp only [List.append_nil] at hsp ⊢
      have htg : tagTok "@STRING".data
          ('@' :: ("STRING".data ++ '{' :: (l0 :: ls ++ ',' :: X))) =
          .ok ('{' :: (l0 :: ls ++ ',' :: X)) "@STRING".data := by
        have h := tagTok_self "@STRING".data ('{' :: (l0 :: ls ++ ',' :: X))
        have he : '@' :: ("STRING".data ++ '{' :: (l0 :: ls ++ ',' :: X)) =
            "@STRING".data ++ '{' :: (l0 :: ls ++ ',' :: X) := rfl
        rw [he]
        exact h
      have hsp2 : sp ('{' :: (l0 :: ls ++ ',' :: X)) =
          .ok ('{' :: (l0 :: ls ++ ',' :: X)) () := sp_nonws _ (by decide)
      have htg3 : tagTok ['{'] ('{' :: (l0 :: ls ++ ',' :: X)) =
          .ok (l0 :: ls ++ ',' :: X) ['{'] := by
        simpa using tagTok_self ['{'] _
      have hsp3 : sp (l0 :: ls ++ ',' :: X) =
          .ok (l0 :: ls ++ ',' :: X) () := by
        rw [List.cons_append]
        exact sp_nonws _ (alnum_not_ws hl0)
      have htl : tag_list (l0 :: ls ++ ',' :: X) =
          .ok (l0 :: ls ++ ',' :: X) [] := by
        have hp : tag_pair ((l0 :: ls) ++ ',' :: X) = .err :=
          tag_pair_label_err _ _ hl
        simp only [tag_list, separatedList, hp, completeP_err]
        rfl
      have htg4 : tagTok ['}'] (l0 :: ls ++ ',' :: X) = .err := by
        rw [List.cons_append]
        exact tagTok_ne [] _ (Ne.symm (alnum_ne_of_ranges hl0 (by decide)))
      simp only [bibEntryString, hsp, PResult.bind_ok, htg, hsp2, htg3, hsp3,
        htl, htg4, PResult.bind_err]
    | cons u0 us =>
      have hu0 : ('A' ≤ u0 && u0 ≤ 'Z') = true := by
        rw [entryTypeOK, Bool.and_eq_true_iff] at ht
        have h2 := ht.2
        rw [List.all_append, Bool.and_eq_true_iff] at h2
        have h3 := h2.2
        rw [List.all_cons, Bool.and_eq_true_iff] at h3
        exact h3.1
      have htg : tagTok "@STRING".data
          ('@' :: (("STRING".data ++ u0 :: us) ++ '{' :: (l0 :: ls ++ ',' :: X))) =
          .ok (u0 :: (us ++ '{' :: (l0 :: ls ++ ',' :: X))) "@STRING".data := by
        have h := tagTok_self "@STRING".data
          (u0 :: (us ++ '{' :: (l0 :: ls ++ ',' :: X)))
        have he : '@' :: (("STRING".data ++ u0 :: us) ++ '{' :: (l0 :: ls ++ ',' :: X)) =
            "@STRING".data ++ u0 :: (us ++ '{' :: (l0 :: ls ++ ',' :: X)) := by
          simp [List.append_assoc]
        rw [he]
        exact h
      have hsp2 : sp (u0 :: (us ++ '{' :: (l0 :: ls ++ ',' :: X))) =
          .ok (u0 :: (us ++ '{' :: (l0 :: ls ++ ',' :: X))) () :=
        sp_nonws _ (alnum_not_ws (alpha_isAlnum (upper_isAlpha hu0)))
      have htg3 : tagTok ['{'] (u0 :: (us ++ '{' :: (l0 :: ls ++ ',' :: X))) = .err :=
        tagTok_ne [] _ (Ne.symm (alnum_ne_of_ranges (alpha_isAlnum (upper_isAlpha hu0)) (by decide)))
      simp only [bibEntryString, hsp, PResult.bind_ok, htg, hsp2, htg3,
        PResult.bind_err]

/-- The full dispatcher on a rendered entry: the keyword alternatives
fail and the generic alternative parses the entry, leaving the rendered
trailing blank line. -/
theorem bibEntryCore_rendered (t l : List Char)
    (m : List (List Char × List Char)) (ext : List Char)
    (ht : entryTypeOK t = true)
    (htp : "PREAMBLE".data.isPrefixOf t = false)
    (htc : "COMMENT".data.isPrefixOf t = false)
    (hl : labelOK l = true)
    (hm : ∀ kv ∈ m, keyOK kv.1 = true ∧ vOK kv.2 = true) :
    bibEntryCore ('@' :: (t ++ '{' :: (l ++ ',' :: '\n' ::
        (tagsBody m ++ '}' :: '\n' :: '\n' :: ext)))) =
      .ok ('\n' :: '\n' :: ext)
        (.entry (t.map Char.toUpper) l (buildMap m)) := by
  have hs := bibEntryString_render_err t l
    ('\n' :: (tagsBody m ++ '}' :: '\n' :: '\n' :: ext)) ht hl
  have hp := bibEntryPreamble_render_err t
    (l ++ ',' :: '\n' :: (tagsBody m ++ '}' :: '\n' :: '\n' :: ext)) htp
  have hc := bibEntryComment_render_err t
    (l ++ ',' :: '\n' :: (tagsBody m ++ '}' :: '\n' :: '\n' :: ext)) htc
  have he := bibEntryEntry_rendered t l m ext ht hl hm
  simp only [bibEntryCore, hs, PResult.orElse_err, hp, hc, he]

/-- `bib_entry` on a rendered entry followed by non-whitespace text
succeeds, consuming the rendered trailing blank line. -/
theorem bib_entry_rendered (t l : List Char)
    (m : List (List Char × List Char)) (e : Char) (es : List Char)
    (ht : entryTypeOK t = true)
    (htp : "PREAMBLE".data.isPrefixOf t = false)
    (htc : "COMMENT".data.isPrefixOf t = false)
    (hl : labelOK l = true)
    (hm : ∀ kv ∈ m, keyOK kv.1 = true ∧ vOK kv.2 = true)
    (hew : isWsNom e = false) :
    bib_entry (renderEntry t l m ++ e :: es) =
      .ok (e :: es) (.entry (t.map Char.toUpper) l (buildMap m)) := by
  rw [renderEntry_shape]
  have hcore := bibEntryCore_rendered t l m (e :: es) ht htp htc hl hm
  have hsp : sp ('\n' :: '\n' :: e :: es) = .ok (e :: es) () := by
    have h := sp_run ['\n', '\n'] e es (by decide) hew
    simpa only [List.cons_append, List.nil_append] using h
  simp only [bib_entry, hcore, PResult.bind_ok, hsp]

/-- `bib_entry` on a bare rendered entry is `Incomplete`: the trailing
whitespace strip hits the end of input inside the rendered blank
line. -/
theorem bib_entry_rendered_incomplete (t l : List Char)
    (m : List (List Char × List Char))
    (ht : entryTypeOK t = true)
    (htp : "PREAMBLE".data.isPrefixOf t = false)
    (htc : "COMMENT".data.isPrefixOf t = false)
    (hl : labelOK l = true)
    (hm : ∀ kv ∈ m, keyOK kv.1 = true ∧ vOK kv.2 = true) :
    bib_entry (renderEntry t l m) = .incomplete := by
  have h0 : renderEntry t l m = renderEntry t l m ++ [] := by simp
  rw [h0, renderEntry_shape]
  have hcore := bibEntryCore_rendered t l m [] ht htp htc hl hm
  have hsp : sp ['\n', '\n'] = .incomplete := sp_allws _ (by decide)
  simp only [bib_entry, hcore, PResult.bind_ok, hsp, PResult.bind_incomplete]

/-- C8: the claim states that re-parsing the library's own rendering of
an Entry through the item parser succeeds and yields a structurally
equal Entry.  Counterexample, in two parts: (i) on the bare rendering of
a well-formed entry the item parser does not succeed at all — it
returns `Incomplete`, because the rendering ends in the blank line that
`ws!`'s trailing whitespace strip runs off; (ii) with a terminator
appended so that the whitespace strip can stop, an entry whose type
starts with `PREAMBLE` is re-parsed as the `Preamble` marker, not as a
structurally equal Entry: the keyword alternative consumes `@PREAMBLE`
and returns, discarding the type, label and tags. -/
theorem c8_counterexample :
    bib_entry (renderEntry "ARTICLE".data "k1".data
      [("date".data, "2000".data)]) = .incomplete ∧
    bib_entry (renderEntry "PREAMBLEX".data "k1".data
        [("a".data, "b".data)] ++ ['.']) =
      .ok ("X\x7bk1,\n    a = \x7bb\x7d,\n\x7d\n\n.".data) .preamble := by
  constructor
  · decide
  · decide

/-- C8 (amended): for every well-formed Entry — nonempty upper-case
type whose name does not begin with the `PREAMBLE` or `COMMENT`
keywords, nonempty alphanumeric label, lower-case alphabetic keys that
are pairwise distinct, and brace-balanced quote-free values — parsing
the library's own rendering back through the item parser yields a
structurally equal Entry (same type, label and tag mapping), provided
the rendering is followed by non-whitespace text at which the trailing
whitespace strip can stop; on the bare rendering, which ends in a blank
line, the item parser instead reports that it needs more input. -/
theorem c8_amended (t l : List Char) (m : List (List Char × List Char))
    (e : Char) (es : List Char)
    (ht : entryTypeOK t = true)
    (htp : "PREAMBLE".data.isPrefixOf t = false)
    (htc : "COMMENT".data.isPrefixOf t = false)
    (hl : labelOK l = true)
    (hm : ∀ kv ∈ m, keyOK kv.1 = true ∧ vOK kv.2 = true)
    (hnd : (m.map Prod.fst).Nodup)
    (hew : isWsNom e = false) :
    bib_entry (renderEntry t l m ++ e :: es) = .ok (e :: es) (.entry t l m) ∧
    bib_entry (renderEntry t l m) = .incomplete := by
  have h1 := bib_entry_rendered t l m e es ht htp htc hl hm hew
  have h2 := bib_entry_rendered_incomplete t l m ht htp htc hl hm
  rw [entryTypeOK_toUpper_id t ht,
    buildMap_id m hnd (fun kv hkv => (hm kv hkv).1)] at h1
  exact ⟨h1, h2⟩

/-- Witness for the amended C8 at a concrete entry: the rendering of
`@ARTICLE\x7bk1, date = \x7b2000\x7d\x7d` followed by a period re-parses
to the same Entry, and the bare rendering is `Incomplete`. -/
theorem c8_amended_witness :
    bib_entry (renderEntry "ARTICLE".data "k1".data
        [("date".data, "2000".data)] ++ '.' :: []) =
      .ok ('.' :: [])
        (.entry "ARTICLE".data "k1".data [("date".data, "2000".data)]) ∧
    bib_entry (renderEntry "ARTICLE".data "k1".data
      [("date".data, "2000".data)]) = .incomplete :=
  c8_amended "ARTICLE".data "k1".data [("date".data, "2000".data)] '.' []
    (by decide) (by decide) (by decide) (by decide)
    (by
      intro kv hkv
      rw [List.mem_singleton] at hkv
      subst hkv
      exact ⟨by decide, vOK_plain "2000".data (by decide) (by decide)⟩)
    (by decide) (by decide)
